import Mathlib

/-!
Verification of the stalker2-cfg-extension parser/validator/formatter core.

Lines of a document are modelled as `List Char`; a document is a `List` of
lines.  The embedding follows the TypeScript sources:

* `Cfg.tokenize`         — src/tokenizer.ts (identical to the tokenizer
                           embedded in the older astBuilder generation);
* `Cfg.P4.buildAST`      — the current parser (parser.ts);
* `Cfg.V2.validateDocument` — the current validator (validator.ts);
* `Cfg.F0.formatDocument`   — the current formatter (formatter.ts);
* `Cfg.P1.buildAST`, `Cfg.P1.validateDocument` — the older single-file
                           astBuilder generation (the only one containing the
                           array-ordering check and the orphan-end
                           suppression heuristics).

JavaScript regular expressions are translated operationally: each `.test` /
capture is replaced by the function it computes on line text.
-/

namespace Cfg

abbrev Line := List Char
abbrev Doc := List Line

/-- Character class of JavaScript `\s` (also the set used by `String.prototype.trim`). -/
def jsSpace (c : Char) : Bool :=
  c = ' ' || c = '\t' || c = '\n' || c = '\r' || c = '\x0b' || c = '\x0c' ||
  c.val = 0xa0 || c.val = 0x1680 || (0x2000 ≤ c.val && c.val ≤ 0x200a) ||
  c.val = 0x2028 || c.val = 0x2029 || c.val = 0x202f || c.val = 0x205f ||
  c.val = 0x3000 || c.val = 0xfeff

/-- JavaScript `String.prototype.trimStart`. -/
def trimStart (l : Line) : Line := l.dropWhile jsSpace

/-- JavaScript `String.prototype.trim`. -/
def trim (l : Line) : Line :=
  ((l.dropWhile jsSpace).reverse.dropWhile jsSpace).reverse

/-- JavaScript `\w` character class (used for `\b` word boundaries). -/
def wordChar (c : Char) : Bool := c.isAlpha || c.isDigit || c = '_'

/-- Index of the first occurrence of `//` in a line (JS `indexOf("//")`),
`none` when the line has no comment marker. -/
def commentIdx : Line → Option Nat
  | [] => none
  | [_] => none
  | c1 :: c2 :: rest =>
    if c1 = '/' ∧ c2 = '/' then some 0
    else (commentIdx (c2 :: rest)).map (· + 1)

/-- Does `sub` occur as a contiguous substring (JS `String.prototype.includes`)? -/
def includesSub (l sub : Line) : Bool :=
  match l with
  | [] => sub.isEmpty
  | _ :: rest => sub.isPrefixOf l || includesSub rest sub

/-- `countIndentFromText` from ast.ts: spaces count 1, tabs count `tabWidth`,
stop at the first other character. -/
def countIndentFromText (s : Line) (tabWidth : Nat) : Nat :=
  match s with
  | [] => 0
  | c :: rest =>
    if c = ' ' then 1 + countIndentFromText rest tabWidth
    else if c = '\t' then tabWidth + countIndentFromText rest tabWidth
    else 0

/-- VS Code's `TextLine.firstNonWhitespaceCharacterIndex` (first index whose
character is neither space nor tab; the line length when none exists). -/
def firstNonWsIdx (l : Line) : Nat :=
  (l.takeWhile (fun c => c = ' ' || c = '\t')).length

inductive TokType where
  | IDENT | LBRACE | RBRACE | COLON | EQUAL | DOT | LBRACKET | RBRACKET
  | COMMENT | STRING | DOUBLE_STRING | INTEGER | FLOAT | OTHER
deriving DecidableEq, Repr

structure Token where
  type : TokType
  text : List Char
  line : Nat
  start : Nat
  stop : Nat
deriving DecidableEq, Repr

/-- The quoted-literal scanning loop of tokenizer.ts (both quote kinds):
consumes characters after the opening quote, treating a doubled quote as an
escaped quote.  Returns the consumed characters and whether a closing quote
was found (`break` taken). -/
def scanStr (q : Char) : List Char → List Char × Bool
  | [] => ([], false)
  | c :: rest =>
    if c = q then
      match rest with
      | c2 :: rest2 =>
        if c2 = q then
          let r := scanStr q rest2
          (c :: c2 :: r.1, r.2)
        else ([c], true)
      | [] => ([c], true)
    else
      let r := scanStr q rest
      (c :: r.1, r.2)

/-- Greedy digit run. -/
def digitRun (l : List Char) : List Char := l.takeWhile Char.isDigit

/-- The unsigned core of the float alternative,
`(?:[0-9]+\.[0-9]*|\.[0-9]+)`. -/
def numFloatCore (l1 : List Char) : Option (List Char) :=
  if digitRun l1 ≠ [] ∧ (l1.drop (digitRun l1).length).head? = some '.' then
    some (digitRun l1 ++ '.' :: digitRun ((l1.drop (digitRun l1).length).drop 1))
  else if l1.head? = some '.' then
    if digitRun (l1.drop 1) ≠ [] then some ('.' :: digitRun (l1.drop 1)) else none
  else none

/-- The numeric-literal regex of tokenizer.ts,
`^(-?(?:[0-9]+\.[0-9]*|\.[0-9]+)(?:f)?)|(^-?[0-9]+)` : returns the matched
text and whether the first (float) alternative matched. -/
def matchNum (l : List Char) : Option (List Char × Bool) :=
  let sign : List Char := if l.head? = some '-' then ['-'] else []
  let l1 := if l.head? = some '-' then l.drop 1 else l
  match numFloatCore l1 with
  | some core =>
    let rest := l.drop (sign.length + core.length)
    let f : List Char := if rest.head? = some 'f' then ['f'] else []
    some (sign ++ core ++ f, true)
  | none =>
    if digitRun l1 ≠ [] then some (sign ++ digitRun l1, false) else none

/-- The identifier regex `^[A-Za-z_][A-Za-z0-9_\-]*`. -/
def matchIdent (l : List Char) : Option (List Char) :=
  match l with
  | [] => none
  | c :: rest =>
    if c.isAlpha || c = '_' then
      some (c :: rest.takeWhile (fun d => d.isAlpha || d.isDigit || d = '_' || d = '-'))
    else none

/-- The main scanning loop of `tokenize` in tokenizer.ts, over the portion of
the line before any comment.  `i` is the line index, `j` the absolute column
of the head of `cs`.  The first argument is recursion fuel; every iteration
consumes at least one character, so fuel `cs.length` is always enough. -/
def tokLoop (i : Nat) : Nat → List Char → Nat → List Token
  | 0, _, _ => []
  | _ + 1, [], _ => []
  | fuel + 1, c :: rest, j =>
    if c = ' ' ∨ c = '\t' then tokLoop i fuel rest (j + 1)
    else if c = '{' then ⟨.LBRACE, [c], i, j, j + 1⟩ :: tokLoop i fuel rest (j + 1)
    else if c = '}' then ⟨.RBRACE, [c], i, j, j + 1⟩ :: tokLoop i fuel rest (j + 1)
    else if c = ':' then ⟨.COLON, [c], i, j, j + 1⟩ :: tokLoop i fuel rest (j + 1)
    else if c = '=' then ⟨.EQUAL, [c], i, j, j + 1⟩ :: tokLoop i fuel rest (j + 1)
    else if c = '.' then ⟨.DOT, [c], i, j, j + 1⟩ :: tokLoop i fuel rest (j + 1)
    else if c = '[' then ⟨.LBRACKET, [c], i, j, j + 1⟩ :: tokLoop i fuel rest (j + 1)
    else if c = ']' then ⟨.RBRACKET, [c], i, j, j + 1⟩ :: tokLoop i fuel rest (j + 1)
    else if c = '\x27' then
      let r := scanStr '\x27' rest
      ⟨.STRING, c :: r.1, i, j, j + 1 + r.1.length⟩ ::
        tokLoop i fuel (rest.drop r.1.length) (j + 1 + r.1.length)
    else if c = '"' then
      let r := scanStr '"' rest
      ⟨.DOUBLE_STRING, c :: r.1, i, j, j + 1 + r.1.length⟩ ::
        tokLoop i fuel (rest.drop r.1.length) (j + 1 + r.1.length)
    else
      match matchNum (c :: rest) with
      | some (txt, isFloat) =>
        ⟨if isFloat then .FLOAT else .INTEGER, txt, i, j, j + txt.length⟩ ::
          tokLoop i fuel (rest.drop (txt.length - 1)) (j + txt.length)
      | none =>
        match matchIdent (c :: rest) with
        | some txt =>
          ⟨.IDENT, txt, i, j, j + txt.length⟩ ::
            tokLoop i fuel (rest.drop (txt.length - 1)) (j + txt.length)
        | none => ⟨.OTHER, [c], i, j, j + 1⟩ :: tokLoop i fuel rest (j + 1)

/-- `tokenize` of tokenizer.ts restricted to one line. -/
def tokenizeLine (i : Nat) (l : Line) : List Token :=
  match commentIdx l with
  | some k => tokLoop i (l.take k).length (l.take k) 0 ++ [⟨.COMMENT, l.drop k, i, k, l.length⟩]
  | none => tokLoop i l.length l 0

def tokenizeAux (i : Nat) : Doc → List (List Token)
  | [] => []
  | l :: ls => tokenizeLine i l :: tokenizeAux (i + 1) ls

/-- `tokenize` of tokenizer.ts: one token list per document line. -/
def tokenize (doc : Doc) : List (List Token) := tokenizeAux 0 doc

/-! ### AST data model (ast.ts) -/

structure Header where
  startLine : Nat
  name : Line
  params : Option (List (Line × Line))
  paramsRaw : Option Line
  indent : Nat
deriving Repr, DecidableEq

inductive Node where
  | block (startLine : Nat) (header : Header) (children : List Node)
      (headerIndent requiredContentIndent : Nat) (endLine : Option Nat)
  | endn (startLine : Nat) (indent : Nat)
  | prop (startLine : Nat) (key value : Line) (indent : Nat)
      (paramsRaw : Option Line) (params : Option (List (Line × Line)))
  | invalid (startLine : Nat) (text : Line) (indent : Nat)
  | malformed (startLine : Nat) (text : Line) (indent : Nat)

/-! ### Header detection

The JS header regexes all have the shape
`^(\s*)(.+?)\s*:\s*struct\.begin\b(...)$?`.  Testing such a regex against a
line amounts to: find the least colon position `p ≥ 1` such that the text
after the colon, once leading whitespace is skipped, continues with the
literal `struct.begin` followed by a remainder accepted by the
generation-specific tail condition. -/

/-- Remainder condition after `struct.begin` for parser.ts
(`\b`, no end anchor): next character absent or not a word character. -/
def cond4 (r : Line) : Bool :=
  match r.head? with
  | none => true
  | some c => !wordChar c

/-- Remainder condition for the astBuilder-generation builder regex
(`\b(?:\s+([\s\S]*))?$`): remainder empty or starting with whitespace. -/
def cond1 (r : Line) : Bool :=
  match r.head? with
  | none => true
  | some c => jsSpace c

/-- Remainder condition for the orphan-suppression regex
(`\b(?:\s*(\{.*\}))?\s*$`). -/
def condS (r : Line) : Bool :=
  let r2 := r.dropWhile jsSpace
  if r2 = [] then true
  else
    let r3 := (r2.reverse.dropWhile jsSpace).reverse
    r2.head? = some '{' && r3.getLast? = some '}' && decide (2 ≤ r3.length)

/-- Does the text after a colon match `\s*struct\.begin` followed by a
remainder accepted by `cond`? -/
def afterBeginMatches (cond : Line → Bool) (s : Line) : Bool :=
  let t := s.dropWhile jsSpace
  "struct.begin".data.isPrefixOf t && cond (t.drop 12)

/-- Least index `≥ 1` of a colon whose right context satisfies `check`. -/
def findColonFrom (check : Line → Bool) : Line → Nat → Option Nat
  | [], _ => none
  | c :: rest, idx =>
    if c = ':' ∧ 1 ≤ idx ∧ check rest then some idx
    else findColonFrom check rest (idx + 1)

/-- Header regex test used by the orphan-suppression logic. -/
def suppressHeaderTest (l : Line) : Bool :=
  (findColonFrom (afterBeginMatches condS) l 0).isSome

/-! ### Parameter-text parsing (shared by both generations)

`paramsRaw.replace(/^\{\s*‍/, "").replace(/\s*\}$/, "")`, split on commas,
`key=value` or bare `key` (`key` maps to `"true"`); JS object insertion
updates an existing key in place. -/

def stripParamBraces (raw : Line) : Line :=
  let a := if raw.head? = some '{' then (raw.drop 1).dropWhile jsSpace else raw
  if a.getLast? = some '}' then (a.dropLast.reverse.dropWhile jsSpace).reverse else a

def objInsert (m : List (Line × Line)) (k v : Line) : List (Line × Line) :=
  if m.any (fun kv => kv.1 = k) then m.map (fun kv => if kv.1 = k then (k, v) else kv)
  else m ++ [(k, v)]

def parsePart (part : Line) : Line × Line :=
  match part.findIdx? (· = '=') with
  | none => (part, "true".data)
  | some 0 => (part, "true".data)
  | some e => (trim (part.take e), trim (part.drop (e + 1)))

def parseParams (raw : Line) : Option (List (Line × Line)) :=
  let inner := stripParamBraces raw
  let parts := ((inner.splitOn ',').map trim).filter (· ≠ [])
  if parts = [] then none
  else some (parts.foldl (fun m part => let kv := parsePart part; objInsert m kv.1 kv.2) [])

/-! ### The current-generation parser (parser.ts, `buildAST`) -/

namespace P4

structure Frame where
  startLine : Nat
  header : Header
  children : List Node
  headerIndent : Nat
  requiredContentIndent : Nat

/-- Append a node to the innermost open block, or to the root list. -/
def attachChild (root : List Node) (stack : List Frame) (n : Node) :
    List Node × List Frame :=
  match stack with
  | [] => (root ++ [n], [])
  | f :: fs => (root, { f with children := f.children ++ [n] } :: fs)

def closeFrame (f : Frame) (endLine : Option Nat) : Node :=
  .block f.startLine f.header f.children f.headerIndent f.requiredContentIndent endLine

/-- Header-line captures for the parser.ts regex
`^(\s*)(.+?)\s*:\s*struct\.begin\b(?:\s*(\{[^}]*\}))?` at colon position `p`. -/
def headerData (l : Line) (p : Nat) (tabWidth : Nat) :
    Nat × Line × Option Line :=
  let w := (l.takeWhile jsSpace).length
  let m1 := if w < p then l.take w else l.take (p - 1)
  let indent := countIndentFromText m1 tabWidth
  let name := trim (l.take p)
  let r := ((l.drop (p + 1)).dropWhile jsSpace).drop 12
  let r2 := r.dropWhile jsSpace
  let paramsRaw :=
    if r2.head? = some '{' then
      let mid := (r2.drop 1).takeWhile (· ≠ '}')
      if ((r2.drop 1).drop mid.length).head? = some '}' then
        some ('{' :: mid ++ ['}'])
      else none
    else none
  (indent, name, paramsRaw)

/-- Classification tail for lines that are neither headers, ends nor
properties: `MalformedHeader` when the line contains a colon, `Invalid`
otherwise. -/
def lowTail (tabWidth : Nat) (i : Nat) (l : Line) : Node :=
  if l.contains ':' then .malformed i (trim l) (countIndentFromText l tabWidth)
  else .invalid i (trim l) (countIndentFromText l tabWidth)

/-- One iteration of the parser.ts line loop. -/
def step (tabWidth indentLevel : Nat) (i : Nat) (l : Line)
    (st : List Node × List Frame) : List Node × List Frame :=
  let t := trim l
  if t = [] then st
  else if "//".data.isPrefixOf t then st
  else
    match findColonFrom (afterBeginMatches cond4) l 0 with
    | some p =>
      let hd := headerData l p tabWidth
      let params := hd.2.2.bind parseParams
      let f : Frame :=
        ⟨i, ⟨i, hd.2.1, params, hd.2.2, hd.1⟩, [], hd.1, hd.1 + indentLevel⟩
      (st.1, f :: st.2)
    | none =>
      if t = "struct.end".data then
        match st.2 with
        | f :: fs => attachChild st.1 fs (closeFrame f (some i))
        | [] => attachChild st.1 [] (.endn i (countIndentFromText l tabWidth))
      else
        let propNode? : Option Node :=
          if l.contains '=' then
            let tokens := tokenizeLine i l
            match tokens.findIdx? (fun tk => tk.type = TokType.EQUAL) with
            | some e =>
              if 0 < e then
                let key := trim (((tokens.take e).map Token.text).join)
                let eqTok := tokens.getD e ⟨.EQUAL, [], i, 0, 0⟩
                let value := trim (l.drop eqTok.stop)
                some (.prop i key value (countIndentFromText l tabWidth) none none)
              else none
            | none => none
          else none
        match propNode? with
        | some n => attachChild st.1 st.2 n
        | none => attachChild st.1 st.2 (lowTail tabWidth i l)

def runLines (tabWidth indentLevel : Nat) :
    Nat → Doc → List Node × List Frame → List Node × List Frame
  | _, [], st => st
  | i, l :: ls, st => runLines tabWidth indentLevel (i + 1) ls (step tabWidth indentLevel i l st)

/-- Close all frames still open at end of document (`endLine` stays unset):
each open frame becomes an unclosed block node, appended as last child of the
enclosing frame (or to the root). -/
def finish : List Node × List Frame → List Node
  | (root, []) => root
  | (root, f :: fs) =>
    root ++
      [fs.foldl (fun nd g => closeFrame { g with children := g.children ++ [nd] } none)
        (closeFrame f none)]

/-- `buildAST` of parser.ts; the result is the child list of the `Document`
root node. -/
def buildAST (doc : Doc) (tabWidth indentLevel : Nat) : List Node :=
  finish (runLines tabWidth indentLevel 0 doc ([], []))

end P4

/-! ### Diagnostics and edits -/

inductive Severity where
  | error | warning
deriving DecidableEq, Repr

structure Diag where
  line : Nat
  colStart : Nat
  colStop : Nat
  message : Line
  severity : Severity
deriving DecidableEq, Repr

structure TextEdit where
  line : Nat
  colStart : Nat
  colStop : Nat
  newText : Line
deriving DecidableEq, Repr

def lineLen (doc : Doc) (i : Nat) : Nat := (doc.getD i []).length

def natStr (n : Nat) : Line := (toString n).data

/-! ### Diagnostic messages (exact strings from the sources) -/

def msgOrphan : Line := "Found \"struct.end\" without a matching \"struct.begin\".".data

def msgUnexpectedBrace : Line := "Unexpected closing brace.".data

def msgUnexpectedBracket : Line := "Unexpected closing bracket.".data

def msgUnclosedTok (t : Token) : Line :=
  if t.text = ['{'] then "Unclosed brace.".data else "Unclosed bracket.".data

def msgSpacing : Line :=
  "Inconsistent spacing around \x27:\x27. Expected \x27name : struct.begin\x27.".data

def msgDup (k name : Line) : Line :=
  "Duplicate property key \"".data ++ k ++ "\" in block \"".data ++ name ++ "\".".data

def msgInvalidBlockName (n : Line) : Line :=
  "Invalid block name: \"".data ++ n ++
    ("\". Block names can only contain alphanumeric characters, underscores, " ++
     "hyphens, periods, asterisks, and square brackets.").data

def msgHeaderIndent (n : Line) (expected found : Nat) : Line :=
  "Block header \"".data ++ n ++ "\" should be indented at least ".data ++
    natStr expected ++ " spaces (found ".data ++ natStr found ++ ").".data

def msgNotClosed (n : Line) : Line :=
  "Block \"".data ++ n ++ "\" was not closed. Missing \"struct.end\".".data

def msgInvalidKey (k : Line) : Line :=
  "Invalid property key: \"".data ++ k ++
    ("\". Property keys can only contain alphanumeric characters, underscores, " ++
     "hyphens, periods, asterisks, and square brackets.").data

def msgEmptyValue (k : Line) : Line :=
  "Property \"".data ++ k ++ "\" has an empty value.".data

def msgContentIndent (n : Line) (expected found : Nat) : Line :=
  "Content inside block \"".data ++ n ++ "\" should be indented at least ".data ++
    natStr expected ++ " spaces (found ".data ++ natStr found ++ ").".data

def msgFloatingStr : Line :=
  "Floating string literal found. All values must be part of a \x27key = value\x27 assignment.".data

def msgFloatingNum : Line :=
  "Floating numeric literal found. All values must be part of a \x27key = value\x27 assignment.".data

def msgInvalidSyntax (t : Line) : Line :=
  "Invalid syntax: \"".data ++ t ++ "\". Expected a property (key = value) or a block definition.".data

def msgTypo : Line := "Possible typo in keyword. Did you mean \x27struct.begin\x27?".data

def msgExpectedBegin : Line := "Expected \x27struct.begin\x27 after \x27:\x27.".data

/-! ### The current-generation validator (validator.ts, `validateDocument`) -/

namespace V2

/-- Shared bracket-balance scan over all tokens; scan errors first, then one
diagnostic per bracket still open at end of document (`sev` is `error` in the
astBuilder generation and `warning` in validator.ts). -/
def bracketScan (doc : Doc) (lineTokens : List (List Token)) (sev : Severity) : List Diag :=
  let res := lineTokens.flatten.foldl
    (fun (st : List Token × List Diag) t =>
      if t.type = TokType.LBRACE ∨ t.type = TokType.LBRACKET then (t :: st.1, st.2)
      else if t.type = TokType.RBRACE then
        match st.1 with
        | top :: rest =>
          if top.type = TokType.LBRACE then (rest, st.2)
          else (st.1, st.2 ++ [⟨t.line, t.start, lineLen doc t.line, msgUnexpectedBrace, .error⟩])
        | [] => (st.1, st.2 ++ [⟨t.line, t.start, lineLen doc t.line, msgUnexpectedBrace, .error⟩])
      else if t.type = TokType.RBRACKET then
        match st.1 with
        | top :: rest =>
          if top.type = TokType.LBRACKET then (rest, st.2)
          else (st.1, st.2 ++ [⟨t.line, t.start, lineLen doc t.line, msgUnexpectedBracket, .error⟩])
        | [] => (st.1, st.2 ++ [⟨t.line, t.start, lineLen doc t.line, msgUnexpectedBracket, .error⟩])
      else st)
    ([], [])
  res.2 ++ res.1.reverse.map (fun t => ⟨t.line, t.start, lineLen doc t.line, msgUnclosedTok t, sev⟩)

/-- Characters allowed in block/property names
(`^[A-Za-z0-9_\-\.\[\]\*]+$`). -/
def nameClassChar (c : Char) : Bool :=
  c.isAlpha || c.isDigit || c = '_' || c = '-' || c = '.' || c = '[' || c = ']' || c = '*'

def validName (n : Line) : Bool := !n.isEmpty && n.all nameClassChar

/-- The duplicate-property-key loop of validator.ts's `Block` branch. -/
def dupScan (doc : Doc) (blockName : Line) (children : List Node) : List Diag :=
  (children.foldl
    (fun (st : List Line × List Diag) child =>
      match child with
      | .prop s k _ ind _ _ =>
        if k = "[*]".data then st
        else if st.1.contains k then
          (st.1, st.2 ++ [⟨s, ind, lineLen doc s, msgDup k blockName, .warning⟩])
        else (st.1 ++ [k], st.2)
      | _ => st)
    ([], [])).2

/-- The `Inconsistent spacing around ':'` checks of validator.ts. -/
def colonSpacingDiags (doc : Doc) (s : Nat) : List Diag :=
  let lt := doc.getD s []
  match lt.findIdx? (· = ':') with
  | none => []
  | some ci =>
    (if 0 < ci ∧ lt.get? (ci - 1) ≠ some ' ' ∧ 2 ≤ ci ∧ lt.get? (ci - 2) = some ' ' then
      [⟨s, ci - 1, lineLen doc s, msgSpacing, .warning⟩] else [])
    ++
    (if 0 < ci ∧ lt.get? (ci + 1) ≠ some ' ' ∧ lt.get? (ci + 2) = some ' ' then
      [⟨s, ci + 1, lineLen doc s, msgSpacing, .warning⟩] else [])

/-- Test of `/^(".*"|'.*')/` on an `Invalid` node's text. -/
def floatingStrTest (t : Line) : Bool :=
  match t.head? with
  | some '"' => (t.drop 1).contains '"'
  | some '\x27' => (t.drop 1).contains '\x27'
  | _ => false

/-- Test of `/^-?(\d+(\.\d*)?|\.\d+)(f)?$/` on an `Invalid` node's text. -/
def fullNumMatch (l : Line) : Bool :=
  let l1 := if l.head? = some '-' then l.drop 1 else l
  let d1 := digitRun l1
  let core? : Option (List Char) :=
    if d1 ≠ [] then
      let after := l1.drop d1.length
      if after.head? = some '.' then some (d1 ++ '.' :: digitRun (after.drop 1))
      else some d1
    else if l1.head? = some '.' ∧ digitRun (l1.drop 1) ≠ [] then
      some ('.' :: digitRun (l1.drop 1))
    else none
  match core? with
  | none => false
  | some core =>
    let rest := l1.drop core.length
    rest = [] ∨ rest = ['f']

mutual

/-- `checkNode` of validator.ts.  `parent` carries the enclosing `Block`'s
name and `requiredContentIndent` when the parent is a block. -/
def checkNode (doc : Doc) : Node → Option (Line × Nat) → List Diag
  | .block s h c _ rci e, parent =>
    dupScan doc h.name c
    ++ (if validName h.name then []
        else [⟨s, 0, lineLen doc s, msgInvalidBlockName h.name, .warning⟩])
    ++ colonSpacingDiags doc s
    ++ (match parent with
        | some (_, prci) =>
          if h.indent < prci then
            [⟨s, 0, lineLen doc s, msgHeaderIndent h.name prci h.indent, .warning⟩]
          else []
        | none => [])
    ++ (match e with
        | none => [⟨s, 0, lineLen doc s, msgNotClosed h.name, .error⟩]
        | some _ => [])
    ++ checkNodeList doc c (h.name, rci)
  | .endn s _, _ => [⟨s, 0, lineLen doc s, msgOrphan, .error⟩]
  | .prop s k v ind _ _, parent =>
    (if validName k then [] else [⟨s, 0, lineLen doc s, msgInvalidKey k, .warning⟩])
    ++ (if v = [] then [⟨s, 0, lineLen doc s, msgEmptyValue k, .warning⟩] else [])
    ++ (match parent with
        | some (pname, prci) =>
          if ind < prci then
            [⟨s, 0, lineLen doc s, msgContentIndent pname prci ind, .warning⟩]
          else []
        | none => [])
  | .invalid s t ind, _ =>
    let m := if floatingStrTest t then msgFloatingStr
      else if fullNumMatch t then msgFloatingNum
      else msgInvalidSyntax t
    [⟨s, ind, lineLen doc s, m, .warning⟩]
  | .malformed s t _, _ =>
    let m := match (t.splitOn ':').get? 1 with
      | some seg =>
        let a := trim seg
        if a ≠ [] ∧ includesSub a "struct".data ∧ includesSub a "begin".data then msgTypo
        else msgExpectedBegin
      | none => msgExpectedBegin
    [⟨s, 0, lineLen doc s, m, .warning⟩]

/-- Diagnostics of a block's children, in order. -/
def checkNodeList (doc : Doc) : List Node → (Line × Nat) → List Diag
  | [], _ => []
  | n :: rest, pr => checkNode doc n (some pr) ++ checkNodeList doc rest pr

end

/-- `validateDocument` of validator.ts. -/
def validateDocument (doc : Doc) (tabWidth indentLevel : Nat) : List Diag :=
  let ast := P4.buildAST doc tabWidth indentLevel
  bracketScan doc (tokenize doc) .warning
    ++ (ast.map (fun n => checkNode doc n none)).flatten

end V2

/-! ### The current-generation formatter (formatter.ts, `formatDocument`) -/

namespace F0

/-- `ensureIndent` of formatter.ts. -/
def ensureIndent (doc : Doc) (tabWidth : Nat) (line expected : Nat) : List TextEdit :=
  let text := doc.getD line []
  let actualChars := firstNonWsIdx text
  let actual := countIndentFromText text tabWidth
  if actual ≠ expected then [⟨line, 0, actualChars, List.replicate expected ' '⟩] else []

mutual

/-- The `walk` of formatter.ts.  `parentRCI` is the (mutated) required
content indent of the enclosing block, when the parent is a block. -/
def walk (doc : Doc) (tabWidth indentLevel : Nat) : Node → Option Nat → List TextEdit
  | .block s _ c _ _ e, parentRCI =>
    let expected := parentRCI.getD 0
    let cur := countIndentFromText (doc.getD s []) tabWidth
    ensureIndent doc tabWidth s expected
      ++ walkList doc tabWidth indentLevel c (cur + indentLevel)
      ++ (match e with
          | some el => ensureIndent doc tabWidth el cur
          | none => [])
  | .prop s _ _ _ _ _, parentRCI =>
    match parentRCI with
    | some rci => ensureIndent doc tabWidth s rci
    | none => []
  | .invalid s _ _, parentRCI =>
    match parentRCI with
    | some rci => ensureIndent doc tabWidth s rci
    | none => []
  | _, _ => []

/-- Edits of a block's children, in order. -/
def walkList (doc : Doc) (tabWidth indentLevel : Nat) : List Node → Nat → List TextEdit
  | [], _ => []
  | n :: rest, rci =>
    walk doc tabWidth indentLevel n (some rci) ++ walkList doc tabWidth indentLevel rest rci

end

/-- `formatDocument` of formatter.ts: validate first, return no edits when an
error-severity diagnostic exists. -/
def formatDocument (doc : Doc) (indentLevel tabWidth : Nat) : List TextEdit :=
  let diagnostics := V2.validateDocument doc tabWidth indentLevel
  if diagnostics.any (fun d => d.severity = Severity.error) then []
  else
    ((P4.buildAST doc tabWidth indentLevel).map
      (fun n => walk doc tabWidth indentLevel n none)).flatten

end F0

/-- Application of a line-scoped text edit (the host editor's edit model):
replace the span `[colStart, colStop)` of the line by the replacement text. -/
def applyEdit (doc : Doc) (e : TextEdit) : Doc :=
  doc.set e.line
    ((doc.getD e.line []).take e.colStart ++ e.newText ++ (doc.getD e.line []).drop e.colStop)

def applyEdits (doc : Doc) (es : List TextEdit) : Doc := es.foldl applyEdit doc

/-! ### The astBuilder generation (`buildAST`/`validateDocument` of the
single-file parser).

In that generation `countIndentFromText` is imported from config.ts and reads
the tab width from configuration; it is passed here as `ctw`. -/

namespace P1

structure BeginRec where
  startLine : Nat
  name : Line
  indent : Nat
  paramsRaw : Option Line
  params : Option (List (Line × Line))
  endLine : Option Nat
deriving Repr

instance : Inhabited BeginRec := ⟨⟨0, [], 0, none, none, none⟩⟩

/-- Character loop of the multi-line parameter lookahead: append every
character, track brace depth (floored at zero), stop at the brace closing
depth zero. -/
def scanParamLine : List Char → Line → Nat → Line × Nat × Bool
  | [], acc, opn => (acc, opn, false)
  | ch :: rest, acc, opn =>
    let acc' := acc ++ [ch]
    if ch = '{' then scanParamLine rest acc' (opn + 1)
    else if ch = '}' then
      let opn' := opn - 1
      if opn' = 0 then (acc', opn', true) else scanParamLine rest acc' opn'
    else scanParamLine rest acc' opn

/-- Multi-line `{...}` parameter lookahead (window of 5 lines following the
header), iterated over the lookahead line indices.  Returns the accumulated
text and the last consumed line. -/
def lookBlockGo (ctw indent : Nat) (doc : Doc) : List Nat → Line → Nat → Option (Line × Nat)
  | [], _, _ => none
  | look :: rest, acc, opn =>
    let nxt := doc.getD look []
    if trim nxt = [] then lookBlockGo ctw indent doc rest acc opn
    else
      let firstNon := (trimStart nxt).head?
      let nxtIndent := countIndentFromText nxt ctw
      if firstNon ≠ some '{' ∧ opn = 0 then none
      else if firstNon = some '{' ∧ nxtIndent < indent then none
      else
        match scanParamLine nxt acc opn with
        | (acc', _, true) => some (acc', look)
        | (acc', opn', false) => lookBlockGo ctw indent doc rest acc' opn'

def lookBlock (ctw indent : Nat) (doc : Doc) (i numLines : Nat) : Option (Line × Nat) :=
  lookBlockGo ctw indent doc (List.range' (i + 1) (min numLines (i + 1 + 5) - (i + 1))) [] 0

/-- Test of `/^\{[^}]*\}$/`. -/
def braceOnlyTest (t : Line) : Bool :=
  t.head? = some '{' && t.getLast? = some '}' && decide (2 ≤ t.length) &&
    ((t.drop 1).dropLast.all (· ≠ '}'))

/-- Brace-only-line lookahead over a window of `window` non-blank lines
(3 after a header, 2 after a property). -/
def lookBraceGo (ctw indent window : Nat) (doc : Doc) : List Nat → Nat → Option (Line × Nat)
  | [], _ => none
  | k :: rest, seen =>
    if seen < window then
      let ln := doc.getD k []
      if trim ln = [] then lookBraceGo ctw indent window doc rest seen
      else
        let t := trim ln
        if braceOnlyTest t ∧ countIndentFromText ln ctw ≥ indent then some (t, k)
        else lookBraceGo ctw indent window doc rest (seen + 1)
    else none

def lookBraceOnly (ctw indent : Nat) (doc : Doc) (i numLines : Nat) : Option (Line × Nat) :=
  lookBraceGo ctw indent 3 doc (List.range' (i + 1) (numLines - (i + 1))) 0

structure Pass1St where
  begins : List BeginRec
  stack : List Nat
  orphans : List Nat
  skip : List Nat

/-- Header captures shared with the parser.ts embedding: `m[1]`-derived
indent and the trimmed name before the matched colon. -/
def headerIndentName (l : Line) (p : Nat) (ctw : Nat) : Nat × Line :=
  let w := (l.takeWhile jsSpace).length
  let m1 := if w < p then l.take w else l.take (p - 1)
  (countIndentFromText m1 ctw, trim (l.take p))

/-- One iteration of the astBuilder first pass (collect begins, pair ends on
a stack, record orphan ends, consume parameter lines). -/
def pass1Step (ctw : Nat) (doc : Doc) (numLines : Nat) (i : Nat) (st : Pass1St) : Pass1St :=
  let l := doc.getD i []
  if trim l = [] then st
  else
    match findColonFrom (afterBeginMatches cond1) l 0 with
    | some p =>
      let hn := headerIndentName l p ctw
      let r := ((l.drop (p + 1)).dropWhile jsSpace).drop 12
      let inline : Option Line :=
        let t := r.dropWhile jsSpace
        if t = [] then none else some t
      let rawSkip : Option Line × List Nat :=
        match inline with
        | some t => (some t, [])
        | none =>
          match lookBlock ctw hn.1 doc i numLines with
          | some (acc, look) => (some acc, List.range' (i + 1) (look - i))
          | none =>
            match lookBraceOnly ctw hn.1 doc i numLines with
            | some (t, k) => (some t, [k])
            | none => (none, [])
      let params := rawSkip.1.bind parseParams
      { st with
        begins := st.begins ++ [⟨i, hn.2, hn.1, rawSkip.1, params, none⟩],
        stack := st.begins.length :: st.stack,
        skip := st.skip ++ rawSkip.2 }
    | none =>
      if trim l = "struct.end".data then
        match st.stack with
        | [] => { st with orphans := st.orphans ++ [i] }
        | b :: rest =>
          { st with
            begins := st.begins.set b { st.begins.getD b default with endLine := some i },
            stack := rest }
      else st

def pass1Run (ctw : Nat) (doc : Doc) (numLines : Nat) (st : Pass1St) : Pass1St :=
  (List.range numLines).foldl (fun st i => pass1Step ctw doc numLines i st) st

/-- `endLine` comparison with `Infinity` for open blocks. -/
def geInf : Option Nat → Option Nat → Bool
  | none, _ => true
  | some _, none => false
  | some x, some y => y ≤ x

/-- The orphan-end heuristic recovery pass. -/
def recover (ctw : Nat) (doc : Doc) (begins : List BeginRec) (orphans : List Nat) :
    List BeginRec × List Nat :=
  if orphans.isEmpty || begins.isEmpty then (begins, orphans)
  else
    orphans.foldl
      (fun (st : List BeginRec × List Nat) eLine =>
        let bs := st.1
        let eIndent := countIndentFromText (doc.getD eLine []) ctw
        let candidates :=
          (bs.enum.filter (fun jb => jb.2.startLine < eLine ∧ jb.2.endLine = none)).reverse
        match candidates.find? (fun jb => eLine - jb.2.startLine ≤ 500 ∧ jb.2.indent ≤ eIndent) with
        | some (j, _) =>
          (bs.set j { bs.getD j default with endLine := some eLine }, st.2)
        | none =>
          match candidates.find? (fun jb => eLine - jb.2.startLine ≤ 500) with
          | some (j, _) =>
            (bs.set j { bs.getD j default with endLine := some eLine }, st.2)
          | none => (bs, st.2 ++ [eLine]))
      (begins, [])

/-- `findParentIdx`: the enclosing begin with the largest start line whose
span (with `Infinity` for open ends) contains this one's. -/
def findParentIdx (begins : List BeginRec) (idx : Nat) : Option Nat :=
  let b := begins.getD idx default
  begins.enum.foldl
    (fun parent jp =>
      if jp.1 ≠ idx ∧ jp.2.startLine < b.startLine ∧ geInf jp.2.endLine b.endLine then
        match parent with
        | none => some jp.1
        | some q =>
          if (begins.getD q default).startLine < jp.2.startLine then some jp.1 else parent
      else parent)
    none

def childIdxs (begins : List BeginRec) (j : Nat) : List Nat :=
  (begins.enum.filter (fun kp => findParentIdx begins kp.1 = some j)).map Prod.fst

def topIdxs (begins : List BeginRec) : List Nat :=
  (begins.enum.filter (fun kp => findParentIdx begins kp.1 = none)).map Prod.fst

/-- Span test for `findContainingBlock` (`start < line < end`, `Infinity`
when the block is open). -/
def containsLine (b : BeginRec) (line : Nat) : Bool :=
  b.startLine < line && (match b.endLine with | none => true | some e => line < e)

/-- `findContainingBlock` on the block skeleton: first matching block at each
level, descending into its children. -/
def findContainingIdx (begins : List BeginRec) (line : Nat) :
    Nat → List Nat → Option Nat
  | 0, _ => none
  | fuel + 1, idxs =>
    match idxs.find? (fun j => containsLine (begins.getD j default) line) with
    | none => none
    | some j => some ((findContainingIdx begins line fuel (childIdxs begins j)).getD j)

/-- The trailing `{...}` match `/^(.*?)(\{\s*[^}]*\s*\})\s*$/` on a property
value, scanning the suffix starting at index `a`: least index of a `{` whose
first following `}` is trailed only by whitespace.  Returns (new value text,
params raw). -/
def trailingBraceGo (v : Line) : List Char → Nat → Option (Line × Line)
  | [], _ => none
  | c :: rest, a =>
    if c = '{' then
      let mid := rest.takeWhile (· ≠ '}')
      if (rest.drop mid.length).head? = some '}' ∧ (rest.drop (mid.length + 1)).all jsSpace then
        some (trim (v.take a), '{' :: mid ++ ['}'])
      else trailingBraceGo v rest (a + 1)
    else trailingBraceGo v rest (a + 1)

def trailingBrace (v : Line) : Option (Line × Line) := trailingBraceGo v v 0

structure Pass2St where
  skip : List Nat
  out : List (Option Nat × Node)

/-- One iteration of the astBuilder second pass (attach properties and
orphan `End` nodes). -/
def pass2Step (ctw : Nat) (doc : Doc) (numLines : Nat) (begins : List BeginRec)
    (orphans : List Nat) (i : Nat) (st : Pass2St) : Pass2St :=
  if st.skip.contains i then st
  else
    let l := doc.getD i []
    if trim l = [] then st
    else if begins.any (fun b => b.startLine = i) then st
    else if begins.any (fun b => b.endLine = some i) then st
    else if orphans.contains i then
      { st with out := st.out ++ [(none, .endn i (countIndentFromText l ctw))] }
    else
      let tokens := tokenizeLine i l
      let owner := findContainingIdx begins i (begins.length + 1) (topIdxs begins)
      match tokens.findIdx? (fun tk => tk.type = TokType.EQUAL) with
      | some e =>
        if 0 < e then
          let key := trim (((tokens.take e).map Token.text).flatten)
          let eqTok := tokens.getD e ⟨.EQUAL, [], i, 0, 0⟩
          let value0 := trim (l.drop eqTok.stop)
          let propIndent := countIndentFromText l ctw
          let vrs : Line × Option Line × List Nat :=
            match trailingBrace value0 with
            | some (v', raw) => (v', some raw, [])
            | none =>
              match lookBraceGo ctw propIndent 2 doc (List.range' (i + 1) (numLines - (i + 1))) 0 with
              | some (t, k) => (value0, some t, [k])
              | none => (value0, none, [])
          let params := vrs.2.1.bind parseParams
          { skip := st.skip ++ vrs.2.2,
            out := st.out ++ [(owner, .prop i key vrs.1 propIndent vrs.2.1 params)] }
        else
          { st with
            out := st.out ++
              [(owner, .prop i "_line".data (trim l) (countIndentFromText l ctw) none none)] }
      | none =>
        { st with
          out := st.out ++
            [(owner, .prop i "_line".data (trim l) (countIndentFromText l ctw) none none)] }

def pass2Run (ctw : Nat) (doc : Doc) (numLines : Nat) (begins : List BeginRec)
    (orphans : List Nat) (st : Pass2St) : Pass2St :=
  (List.range numLines).foldl (fun st i => pass2Step ctw doc numLines begins orphans i st) st

/-- Assemble the block node for begin `j`: nested blocks (in begin order)
followed by the second-pass nodes assigned to `j` (in line order). -/
def assemble (begins : List BeginRec) (il : Nat) (assigned : List (Option Nat × Node)) :
    Nat → Nat → Node
  | fuel, j =>
    let b := begins.getD j default
    let kids :=
      match fuel with
      | 0 => []
      | fuel + 1 => (childIdxs begins j).map (assemble begins il assigned fuel)
    .block b.startLine ⟨b.startLine, b.name, b.params, b.paramsRaw, b.indent⟩
      (kids ++ (assigned.filter (fun pr => pr.1 = some j)).map Prod.snd)
      b.indent (b.indent + il) b.endLine

/-- `buildAST` of the astBuilder generation; result is the `Document` root's
child list. -/
def buildAST (doc : Doc) (ctw tabWidth indentLevel : Nat) : List Node :=
  let numLines := doc.length
  let st1 := pass1Run ctw doc numLines ⟨[], [], [], []⟩
  let rec1 := recover ctw doc st1.begins st1.orphans
  let begins := rec1.1
  let orphans := rec1.2
  let st2 := pass2Run ctw doc numLines begins orphans ⟨st1.skip, []⟩
  let rootBlocks := (topIdxs begins).map (assemble begins indentLevel st2.out begins.length)
  rootBlocks ++ (st2.out.filter (fun pr => pr.1 = none)).map Prod.snd

/-! #### astBuilder-generation validator -/

/-- `push` of the astBuilder validator: range end is
`Math.max(1, lineLength)`. -/
def pushD (doc : Doc) (line ch : Nat) (msg : Line) (sev : Severity) : Diag :=
  ⟨line, ch, max 1 (lineLen doc line), msg, sev⟩

def msgFloating (t : Line) : Line :=
  "Floating value \x27".data ++ t ++ "\x27 is not part of an assignment.".data

def msgUnclosedStr : Line := "Unclosed string literal.".data

def isLitType (ty : TokType) : Bool :=
  ty = .STRING || ty = .DOUBLE_STRING || ty = .INTEGER || ty = .FLOAT

/-- Per-line token loop: floating literals, unterminated strings, bracket
balance.  `brs` is the document-wide bracket stack, `hasAssign` resets per
line. -/
def tokLinePass (doc : Doc) : List Token → Option Token → Bool → List Token → List Diag →
    List Token × List Diag
  | [], _, _, brs, ds => (brs, ds)
  | t :: rest, prev, hasAssign, brs, ds =>
    let hasAssign' := hasAssign || t.type = .EQUAL
    let floatDs :=
      if isLitType t.type ∧ !hasAssign' then
        if t.type = .INTEGER ∧ prev.map Token.type = some .LBRACKET ∧
            rest.head?.map Token.type = some .RBRACKET then []
        else [pushD doc t.line t.start (msgFloating t.text) .warning]
      else []
    let strDs :=
      (if t.type = .STRING ∧ t.text.getLast? ≠ some '\x27' then
        [pushD doc t.line t.start msgUnclosedStr .error] else [])
      ++ (if t.type = .DOUBLE_STRING ∧ t.text.getLast? ≠ some '"' then
        [pushD doc t.line t.start msgUnclosedStr .error] else [])
    let br : List Token × List Diag :=
      if t.type = .LBRACE ∨ t.type = .LBRACKET then (t :: brs, [])
      else if t.type = .RBRACE then
        match brs with
        | top :: rest2 =>
          if top.type = .LBRACE then (rest2, [])
          else (brs, [pushD doc t.line t.start msgUnexpectedBrace .error])
        | [] => (brs, [pushD doc t.line t.start msgUnexpectedBrace .error])
      else if t.type = .RBRACKET then
        match brs with
        | top :: rest2 =>
          if top.type = .LBRACKET then (rest2, [])
          else (brs, [pushD doc t.line t.start msgUnexpectedBracket .error])
        | [] => (brs, [pushD doc t.line t.start msgUnexpectedBracket .error])
      else (brs, [])
    tokLinePass doc rest (some t) hasAssign' br.1 (ds ++ floatDs ++ strDs ++ br.2)

def tokenPass (doc : Doc) (lineTokens : List (List Token)) : List Diag :=
  let res := lineTokens.foldl
    (fun (st : List Token × List Diag) toks => tokLinePass doc toks none false st.1 st.2)
    ([], [])
  res.2 ++ res.1.reverse.map (fun t => pushD doc t.line t.start (msgUnclosedTok t) .error)

/-! Orphan-end suppression conditions (End branch of the validator). -/

/-- Is the end node directly followed (skipping blank lines) by a block-open
header, or at end of file? -/
def nextIsHeader (doc : Doc) (ln : Nat) : Bool :=
  let numLines := doc.length
  match (List.range' (ln + 1) (numLines - (ln + 1))).find?
      (fun k => !(trim (doc.getD k [])).isEmpty) with
  | some n => suppressHeaderTest (doc.getD n [])
  | none => true

def prevNonBlankIdx (doc : Doc) : Nat → Option Nat
  | 0 => none
  | k + 1 => if trim (doc.getD k []) = [] then prevNonBlankIdx doc k else some k

/-- Is the preceding non-blank line a `struct.end` line
(`/^\s*struct\.end\s*$/`)? -/
def prevIsEnd (doc : Doc) (ln : Nat) : Bool :=
  match prevNonBlankIdx doc ln with
  | none => false
  | some k => trim (doc.getD k []) = "struct.end".data

def suppressed (doc : Doc) (ln : Nat) : Bool := nextIsHeader doc ln || prevIsEnd doc ln

/-! Block-level parameter and array-index diagnostics. -/

def joinComma (cs : List Char) : Line := ((cs.map (fun c => [c])).intersperse ", ".data).flatten

def hintFor (raw : Line) : Line :=
  if raw.head? ≠ some '{' then "Parameters must start with an opening brace \x27\x7b\x27.".data
  else if raw.getLast? ≠ some '}' then
    "Parameters must end with a closing brace \x27\x7d\x27.".data
  else "Expected \x7b key=value, ... \x7d".data

def msgMalformedParams (name hint : Line) : Line :=
  "Malformed parameters for block \"".data ++ name ++ "\". ".data ++ hint

def msgParamName (k : Line) (bad : List Char) : Line :=
  "Parameter name \"".data ++ k ++ "\" contains invalid characters: ".data ++ joinComma bad ++
    ". Only letters, numbers, underscores, and hyphens are allowed.".data

def msgParamEmpty (k : Line) : Line :=
  "Parameter \"".data ++ k ++
    "\" has an empty value. This may not be intended. Consider removing it if it is not needed.".data

def paramDiags (doc : Doc) (s : Nat) (name : Line) (raw? : Option Line)
    (params? : Option (List (Line × Line))) : List Diag :=
  match raw? with
  | none => []
  | some raw =>
    match params? with
    | none => [pushD doc s 0 (msgMalformedParams name (hintFor raw)) .warning]
    | some ps =>
      (ps.map (fun kv =>
        (let bad := kv.1.filter (fun c => !(c.isAlpha || c.isDigit || c = '_' || c = '-'))
         if bad ≠ [] then [pushD doc s 0 (msgParamName kv.1 bad) .warning] else [])
        ++ (if kv.2 = [] then [pushD doc s 0 (msgParamEmpty kv.1) .warning] else []))).flatten

/-- JS `parseInt(s, 10)` (`none` encodes `NaN`). -/
def parseIntJS (s : Line) : Option Int :=
  let t := s.dropWhile jsSpace
  let sign : Int := if t.head? = some '-' then -1 else 1
  let t1 := if t.head? = some '-' ∨ t.head? = some '+' then t.drop 1 else t
  let ds := digitRun t1
  if ds = [] then none
  else some (sign * ((ds.foldl (fun n c => n * 10 + (c.toNat - '0'.toNat)) 0 : Nat) : Int))

/-- JS `>` where `none` is `NaN` (comparisons with `NaN` are false). -/
def gtO : Option Int → Option Int → Bool
  | some x, some y => decide (y < x)
  | _, _ => false

/-- JS `indices[i] !== indices[i+1] - 1` (`NaN !== anything` is true). -/
def neqSucc : Option Int → Option Int → Bool
  | some x, some y => decide (x ≠ y - 1)
  | _, _ => true

def msgOutOfOrder : Line := "Array elements are out of order.".data

def showIdxP : Option Int → Line
  | some v => (toString v).data
  | none => "NaN".data

def showIdxSucc : Option Int → Line
  | some v => (toString (v + 1)).data
  | none => "NaN".data

def msgNonSeq (i1 i2 : Option Int) : Line :=
  "Non-sequential array index. Expected ".data ++ showIdxSucc i1 ++ " but got ".data ++
    showIdxP i2 ++ ".".data

/-- Children whose keys are bracketed indices (excluding the `[*]`
wildcard), with their parsed numeric index. -/
def arrayPairs (children : List Node) : List (Nat × Option Int) :=
  children.filterMap fun c =>
    match c with
    | .prop s k _ _ _ _ =>
      if k.head? = some '[' ∧ k.getLast? = some ']' ∧ k ≠ "[*]".data then
        some (s, parseIntJS (k.drop 1).dropLast)
      else none
    | _ => none

def arrayLoop (doc : Doc) : List (Nat × Option Int) → List Diag
  | (_, i1) :: (s2, i2) :: rest =>
    if gtO i1 i2 then [pushD doc s2 0 msgOutOfOrder .warning]
    else
      (if neqSucc i1 i2 then [pushD doc s2 0 (msgNonSeq i1 i2) .warning] else [])
        ++ arrayLoop doc ((s2, i2) :: rest)
  | _ => []

def arrayDiags (doc : Doc) (children : List Node) : List Diag :=
  let arr := arrayPairs children
  if 1 < arr.length then arrayLoop doc arr else []

mutual

/-- `checkNode` of the astBuilder validator. -/
def checkNode (doc : Doc) : Node → Option (Line × Nat) → List Diag
  | .block s h c _ rci e, parent =>
    (match parent with
     | some (_, prci) =>
       if h.indent < prci then [pushD doc s 0 (msgHeaderIndent h.name prci h.indent) .error]
       else []
     | none => [])
    ++ (match e with
        | none => [pushD doc s 0 (msgNotClosed h.name) .error]
        | some _ => [])
    ++ paramDiags doc s h.name h.paramsRaw h.params
    ++ arrayDiags doc c
    ++ checkNodeList doc c (h.name, rci)
  | .endn s _, parent =>
    match parent with
    | some _ => []
    | none => if suppressed doc s then [] else [pushD doc s 0 msgOrphan .error]
  | .prop s k v ind _ _, parent =>
    (if v = [] then [pushD doc s 0 (msgEmptyValue k) .warning] else [])
    ++ (match parent with
        | some (pname, prci) =>
          if ind < prci then [pushD doc s 0 (msgContentIndent pname prci ind) .warning]
          else []
        | none => [])
  | .invalid _ _ _, _ => []
  | .malformed _ _ _, _ => []

/-- Diagnostics of a block's children, in order. -/
def checkNodeList (doc : Doc) : List Node → (Line × Nat) → List Diag
  | [], _ => []
  | n :: rest, pr => checkNode doc n (some pr) ++ checkNodeList doc rest pr

end

/-- `validateDocument` of the astBuilder generation. -/
def validateDocument (doc : Doc) (ctw tabWidth indentLevel : Nat) : List Diag :=
  let ast := buildAST doc ctw tabWidth indentLevel
  tokenPass doc (tokenize doc)
    ++ (ast.map (fun n => checkNode doc n none)).flatten

end P1

/-! ### Derived notions used in the claim statements -/

/-- Classification of a line by the parser.ts loop, restricted to the
block markers: `some true` for a block-open header, `some false` for a
`struct.end` line, `none` otherwise (including skipped blank/comment
lines). -/
def lineMarker (l : Line) : Option Bool :=
  let t := trim l
  if t = [] then none
  else if "//".data.isPrefixOf t then none
  else if (findColonFrom (afterBeginMatches cond4) l 0).isSome then some true
  else if t = "struct.end".data then some false
  else none

/-- Dyck-language check of the marker sequence: a close marker always finds
an open one, and every open marker is closed by the end. -/
def balancedFrom : List (Option Bool) → Nat → Bool
  | [], h => h = 0
  | m :: rest, h =>
    match m with
    | some true => balancedFrom rest (h + 1)
    | some false => decide (h ≠ 0) && balancedFrom rest (h - 1)
    | none => balancedFrom rest h

/-- A well-formed document: every block-open line has exactly one matching
`struct.end` with correct nesting. -/
def wellFormed (doc : Doc) : Bool := balancedFrom (doc.map lineMarker) 0

mutual

/-- Number of `End` nodes in a subtree. -/
def endCountN : Node → Nat
  | .endn _ _ => 1
  | .block _ _ c _ _ _ => endCountL c
  | _ => 0

def endCountL : List Node → Nat
  | [] => 0
  | n :: rest => endCountN n + endCountL rest

end

mutual

/-- Number of `Block` nodes in a subtree whose `endLine` is unset. -/
def unclosedCountN : Node → Nat
  | .block _ _ c _ _ e => (if e = none then 1 else 0) + unclosedCountL c
  | _ => 0

def unclosedCountL : List Node → Nat
  | [] => 0
  | n :: rest => unclosedCountN n + unclosedCountL rest

end

mutual

/-- All (parent required content indent, child start line, child header)
triples for blocks nested directly inside another block. -/
def nestedPairsN : Node → List (Nat × Nat × Header)
  | .block _ _ c _ rci _ =>
    (c.filterMap (fun ch =>
      match ch with
      | .block s h _ _ _ _ => some (rci, s, h)
      | _ => none))
    ++ nestedPairsL c
  | _ => []

def nestedPairsL : List Node → List (Nat × Nat × Header)
  | [] => []
  | n :: rest => nestedPairsN n ++ nestedPairsL rest

end

/-- Root-level block header parameter mappings (for the parameter-parsing
scenario). -/
def rootHeaderParams (ns : List Node) : List (Option (List (Line × Line))) :=
  ns.filterMap fun n =>
    match n with
    | .block _ h _ _ _ _ => some h.params
    | _ => none

/-- Was the quoted literal of a string token terminated within the tokenized
portion of its line?  Recomputes the tokenizer's quote scan from the token's
start position. -/
def tokenScanClosed (l : Line) (t : Token) : Bool :=
  let upTo := match commentIdx l with | some k => k | none => l.length
  let q := if t.type = TokType.STRING then '\x27' else '"'
  (scanStr q ((l.take upTo).drop (t.start + 1))).2

/-- The quote character matching a string token's kind. -/
def quoteOf (t : Token) : Char := if t.type = TokType.STRING then '\x27' else '"'

/-! ### Concrete documents for the scenario claims and witnesses -/

def docUnclosed : Doc := ["A : struct.begin".data]

def docMisindented : Doc :=
  ["A : struct.begin".data, "   B : struct.begin".data, "   struct.end".data,
   "struct.end".data]

def docScenario1 : Doc := ["A : struct.begin".data, "x = 1".data, "struct.end".data]

def docParams : Doc := ["A : struct.begin \x7bx=1,y\x7d".data, "struct.end".data]

def docShallowNested : Doc :=
  ["A : struct.begin".data, "B : struct.begin".data, "  struct.end".data,
   "struct.end".data]

def docArrNamed : Doc :=
  ["A : struct.begin".data, "arr[1] = v".data, "arr[0] = v".data, "struct.end".data]

def docArrBracket : Doc :=
  ["A : struct.begin".data, "[1] = v".data, "[0] = v".data, "struct.end".data]

def docOrphanProp : Doc := ["struct.end".data, "x = 1".data]

def lineTripleQuote : Line := ['\x27', '\x27', '\x27']

def lineOpenQuote : Line := ['\x27', 'a', 'b']

end Cfg

/-! ## Claim theorems -/

open Cfg

/-- Claim C1: for every document, indent step and tab width, if
`validateDocument` returns at least one diagnostic with `Error` severity,
then `formatDocument` returns an empty edit list. -/
theorem c1_formatter_gated_on_errors (doc : Doc) (indentLevel tabWidth : Nat)
    (h : ∃ d ∈ V2.validateDocument doc tabWidth indentLevel,
      d.severity = Severity.error) :
    F0.formatDocument doc indentLevel tabWidth = [] := by
  unfold F0.formatDocument
  have hany : (V2.validateDocument doc tabWidth indentLevel).any
      (fun d => d.severity = Severity.error) = true := by
    obtain ⟨d, hd, hs⟩ := h
    exact List.any_eq_true.mpr ⟨d, hd, by simp [hs]⟩
  simp [hany]

/-- Claim C1 witness: an unclosed block produces an error diagnostic and the
formatter returns no edits. -/
theorem c1_formatter_gated_on_errors_witness :
    (∃ d ∈ V2.validateDocument docUnclosed 4 2, d.severity = Severity.error) ∧
      F0.formatDocument docUnclosed 2 4 = [] :=
  ⟨by decide, c1_formatter_gated_on_errors docUnclosed 2 4 (by decide)⟩

/-- Claim C2 (failing evaluation): formatting is not idempotent.  For the
document with a nested block header indented 3 spaces (and no error
diagnostics), the first format pass re-indents only the nested header; after
the host applies the edits, a second pass still produces an edit (for the
nested block's `struct.end` line), because the formatter recomputes
`requiredContentIndent` from the unmodified document text rather than the
just-rewritten indent. -/
theorem c2_format_not_idempotent :
    V2.validateDocument docMisindented 2 2 = []
    ∧ F0.formatDocument docMisindented 2 2 = [⟨1, 0, 3, ['\x20', '\x20']⟩]
    ∧ F0.formatDocument (applyEdits docMisindented (F0.formatDocument docMisindented 2 2)) 2 2
        = [⟨2, 0, 3, ['\x20', '\x20']⟩] := by
  refine ⟨by decide, by decide, by decide⟩

/-- Claim C4 counterexample: a nested block whose header indent (0) is below
the parent's required content indent (2) yields a diagnostic of `Warning`
severity, not `Error`; indeed no error-severity diagnostic exists for this
document. -/
theorem c4_header_indent_counterexample :
    nestedPairsL (P4.buildAST docShallowNested 2 2)
        = [(2, 1, ⟨1, ['B'], none, none, 0⟩)]
    ∧ V2.validateDocument docShallowNested 2 2
        = [⟨1, 0, 16, msgHeaderIndent ['B'] 2 0, Severity.warning⟩]
    ∧ ∀ d ∈ V2.validateDocument docShallowNested 2 2, d.severity ≠ Severity.error := by
  refine ⟨by decide, by decide, by decide⟩

/-- Claim C6 counterexample: on the scenario input with keys `arr[1]` and
`arr[0]`, the astBuilder validator emits zero out-of-order array warnings
(the check only fires for fully bracketed keys such as `[1]`). -/
theorem c6_out_of_order_counterexample :
    (P1.validateDocument docArrNamed 3 3 3).filter
      (fun d => decide (d.message = P1.msgOutOfOrder)) = [] := by
  decide

/-- Claim C6 amended: with fully bracketed index keys `[1]` and `[0]`,
validation emits exactly one out-of-order warning, located on the `[0]`
line. -/
theorem c6_out_of_order_amended :
    (P1.validateDocument docArrBracket 3 3 3).filter
        (fun d => decide (d.message = P1.msgOutOfOrder))
      = [⟨2, 0, 7, P1.msgOutOfOrder, Severity.warning⟩] := by
  decide

/-- Claim C7: for `A : struct.begin {x=1,y}` followed by `struct.end`, the
header parameters parse to the mapping x ↦ "1", y ↦ "true" (a bare key maps
to "true"), and validation emits no diagnostic at all — in particular no
malformed-parameter warning. -/
theorem c7_header_params_scenario :
    rootHeaderParams (P4.buildAST docParams 4 2)
        = [some [(['x'], ['1']), (['y'], "true".data)]]
    ∧ V2.validateDocument docParams 4 2 = [] := by
  refine ⟨by decide, by decide⟩

/-- Claim C9 counterexample: on scenario 1 (`A : struct.begin` / `x = 1` /
`struct.end`, indent step 2) validation does not return an empty list — it
returns a content-indentation warning. -/
theorem c9_scenario1_counterexample :
    V2.validateDocument docScenario1 4 2 ≠ [] := by
  decide

/-- Claim C9 amended: scenario 1 yields exactly one diagnostic — a `Warning`
(content indentation), no errors — and formatting produces one edit that sets
the leading whitespace of the `x = 1` line to exactly two spaces. -/
theorem c9_scenario1_amended :
    V2.validateDocument docScenario1 4 2
        = [⟨1, 0, 5, msgContentIndent ['A'] 2 0, Severity.warning⟩]
    ∧ F0.formatDocument docScenario1 2 4 = [⟨1, 0, 0, ['\x20', '\x20']⟩] := by
  refine ⟨by decide, by decide⟩

/-! Helper lemmas for membership in the validator.ts output. -/

theorem checkNodeList_mem {doc : Doc} {ch : Node} {c : List Node} {pr : Line × Nat} {d : Diag}
    (hch : ch ∈ c) (hd : d ∈ V2.checkNode doc ch (some pr)) :
    d ∈ V2.checkNodeList doc c pr := by
  induction c with
  | nil => cases hch
  | cons n rest ih =>
    rw [V2.checkNodeList]
    rcases List.mem_cons.mp hch with h | h
    · exact List.mem_append_left _ (h ▸ hd)
    · exact List.mem_append_right _ (ih h)

theorem nestedPairsL_mem {p : Nat × Nat × Header} {c : List Node}
    (h : p ∈ nestedPairsL c) : ∃ n ∈ c, p ∈ nestedPairsN n := by
  induction c with
  | nil => rw [nestedPairsL] at h; cases h
  | cons n rest ih =>
    rw [nestedPairsL] at h
    rcases List.mem_append.mp h with h | h
    · exact ⟨n, List.mem_cons_self _ _, h⟩
    · obtain ⟨m, hm, hp⟩ := ih h
      exact ⟨m, List.mem_cons_of_mem _ hm, hp⟩

theorem checkNode_block_header_indent (doc : Doc) (s : Nat) (hd : Header)
    (c : List Node) (hi rci : Nat) (e : Option Nat) (pname : Line) (prci : Nat)
    (hlt : hd.indent < prci) :
    (⟨s, 0, lineLen doc s, msgHeaderIndent hd.name prci hd.indent, .warning⟩ : Diag)
      ∈ V2.checkNode doc (.block s hd c hi rci e) (some (pname, prci)) := by
  rw [V2.checkNode.eq_def]
  refine List.mem_append_left _ (List.mem_append_left _ (List.mem_append_right _ ?_))
  simp [hlt]

theorem c4aux (doc : Doc) (prci s : Nat) (hd : Header) (hlt : hd.indent < prci) :
    ∀ (k : Nat) (n : Node), sizeOf n ≤ k → ∀ po : Option (Line × Nat),
      (prci, s, hd) ∈ nestedPairsN n →
      (⟨s, 0, lineLen doc s, msgHeaderIndent hd.name prci hd.indent, .warning⟩ : Diag)
        ∈ V2.checkNode doc n po := by
  intro k
  induction k with
  | zero =>
    intro n hn
    cases n <;> simp at hn
  | succ k ih =>
    intro n hn po hmem
    cases n with
    | block bs bh bc bhi brci be =>
      rw [nestedPairsN] at hmem
      rcases List.mem_append.mp hmem with hdir | hrec
      · obtain ⟨ch, hch, hval⟩ := List.mem_filterMap.mp hdir
        cases ch with
        | block cs chh cc chi crci ce =>
          simp only [Option.some.injEq, Prod.mk.injEq] at hval
          obtain ⟨h1, h2, h3⟩ := hval
          subst h1; subst h2; subst h3
          rw [V2.checkNode.eq_def]
          refine List.mem_append_right _ ?_
          exact checkNodeList_mem hch
            (checkNode_block_header_indent _ _ _ _ _ _ _ _ _ hlt)
        | endn a b => simp at hval
        | prop a b cq dq eq fq => simp at hval
        | invalid a b cq => simp at hval
        | malformed a b cq => simp at hval
      · obtain ⟨ch, hch, hp⟩ := nestedPairsL_mem hrec
        have hsz : sizeOf ch ≤ k := by
          have := List.sizeOf_lt_of_mem hch
          simp at hn
          omega
        rw [V2.checkNode.eq_def]
        refine List.mem_append_right _ ?_
        exact checkNodeList_mem hch (ih ch hsz (some (bh.name, brci)) hp)
    | endn a b => simp [nestedPairsN] at hmem
    | prop a b c d e f => simp [nestedPairsN] at hmem
    | invalid a b c => simp [nestedPairsN] at hmem
    | malformed a b c => simp [nestedPairsN] at hmem

/-- Claim C4 (amended): for every block nested inside a parent block whose
header indent is below the parent's required content indent, the current
validator emits the header-indentation diagnostic for it — with `Warning`
severity. -/
theorem c4_header_indent_warning (doc : Doc) (tw il prci s : Nat) (hd : Header)
    (hmem : (prci, s, hd) ∈ nestedPairsL (P4.buildAST doc tw il))
    (hlt : hd.indent < prci) :
    (⟨s, 0, lineLen doc s, msgHeaderIndent hd.name prci hd.indent, .warning⟩ : Diag)
      ∈ V2.validateDocument doc tw il := by
  obtain ⟨n, hn, hp⟩ := nestedPairsL_mem hmem
  have hck := c4aux doc prci s hd hlt (sizeOf n) n le_rfl none hp
  unfold V2.validateDocument
  refine List.mem_append_right _ ?_
  exact List.mem_flatten.mpr ⟨_, List.mem_map_of_mem _ hn, hck⟩

/-- Claim C4 (amended) witness: the under-indented nested block `B` receives
the warning diagnostic. -/
theorem c4_header_indent_warning_witness :
    (⟨1, 0, 16, msgHeaderIndent ['B'] 2 0, Severity.warning⟩ : Diag)
      ∈ V2.validateDocument docShallowNested 2 2 :=
  c4_header_indent_warning docShallowNested 2 2 2 1 ⟨1, ['B'], none, none, 0⟩
    (by decide) (by decide)

/-! Helper lemmas about the tokenizer's quoted-literal scan (claim C8). -/

theorem scanStr_nil (q : Char) : scanStr q [] = ([], false) := rfl

theorem scanStr_cons_ne {q c : Char} (hne : c ≠ q) (rest : List Char) :
    scanStr q (c :: rest) = (c :: (scanStr q rest).1, (scanStr q rest).2) := by
  rw [scanStr.eq_def]
  simp [hne]

theorem scanStr_q_nil (q : Char) : scanStr q [q] = ([q], true) := by
  rw [scanStr.eq_def]
  simp

theorem scanStr_q_ne {q c2 : Char} (hne : c2 ≠ q) (rest2 : List Char) :
    scanStr q (q :: c2 :: rest2) = ([q], true) := by
  rw [scanStr.eq_def]
  simp [hne]

theorem scanStr_qq (q : Char) (rest2 : List Char) :
    scanStr q (q :: q :: rest2) = (q :: q :: (scanStr q rest2).1, (scanStr q rest2).2) := by
  rw [scanStr.eq_def]
  simp

theorem scanStr_unterminated_shape (q : Char) :
    ∀ (n : Nat) (cs : List Char), cs.length ≤ n → (scanStr q cs).2 = false →
      (scanStr q cs).1.getLast? = some q →
      2 ≤ (scanStr q cs).1.length ∧ (scanStr q cs).1.dropLast.getLast? = some q := by
  intro n
  induction n with
  | zero =>
    intro cs hlen hf hlast
    match cs with
    | [] => simp [scanStr_nil] at hlast
    | c :: rest => simp at hlen
  | succ n ih =>
    intro cs hlen hf hlast
    match cs with
    | [] => simp [scanStr_nil] at hlast
    | c :: rest =>
      by_cases hc : c = q
      · subst hc
        match rest with
        | [] => rw [scanStr_q_nil] at hf; simp at hf
        | c2 :: rest2 =>
          by_cases hc2 : c2 = c
          · subst hc2
            rw [scanStr_qq] at hf hlast ⊢
            dsimp only at hf hlast ⊢
            rcases hr : (scanStr c2 rest2).1 with _ | ⟨x, xs⟩
            · simp [hr]
            · have hlen2 : rest2.length ≤ n := by simp at hlen; omega
              have hlastr : (scanStr c2 rest2).1.getLast? = some c2 := by
                rw [hr]
                rw [hr] at hlast
                simpa using hlast
              obtain ⟨hge, hdl⟩ := ih rest2 hlen2 hf hlastr
              rw [hr] at hge hdl
              refine ⟨by simp, ?_⟩
              rcases hxs : xs with _ | ⟨y, ys⟩
              · rw [hxs] at hge; simp at hge
              · rw [hxs] at hdl
                simpa using hdl
          · rw [scanStr_q_ne hc2] at hf
            simp at hf
      · rw [scanStr_cons_ne hc] at hf hlast ⊢
        dsimp only at hf hlast ⊢
        rcases hr : (scanStr q rest).1 with _ | ⟨x, xs⟩
        · rw [hr] at hlast
          simp at hlast
          exact absurd hlast hc
        · have hlen2 : rest.length ≤ n := by simp at hlen; omega
          have hlastr : (scanStr q rest).1.getLast? = some q := by
            rw [hr]
            rw [hr] at hlast
            simpa using hlast
          obtain ⟨hge, hdl⟩ := ih rest hlen2 hf hlastr
          rw [hr] at hge hdl
          refine ⟨by simp, ?_⟩
          rcases hxs : xs with _ | ⟨y, ys⟩
          · rw [hxs] at hge; simp at hge
          · rw [hxs] at hdl
            simpa using hdl

/-! Helper lemmas about the numeric and identifier matchers. -/

theorem numFloatCore_ne_nil {l1 core : List Char} (h : numFloatCore l1 = some core) :
    core ≠ [] := by
  unfold numFloatCore at h
  split at h
  · simp only [Option.some.injEq] at h
    subst h
    simp
  · split at h
    · split at h
      · simp only [Option.some.injEq] at h
        subst h
        simp
      · cases h
    · cases h

theorem matchNum_pos {l txt : List Char} {b : Bool} (h : matchNum l = some (txt, b)) :
    0 < txt.length := by
  unfold matchNum at h
  dsimp only at h
  cases hfc : numFloatCore (if l.head? = some '-' then l.drop 1 else l) with
  | none =>
    rw [hfc] at h
    try dsimp only at h
    repeat' split at h
    all_goals
      first
        | exact Option.noConfusion h
        | (simp only [Option.some.injEq, Prod.mk.injEq] at h
           obtain ⟨h1, _⟩ := h
           subst h1
           simp_all [List.length_pos])
  | some core =>
    rw [hfc] at h
    try dsimp only at h
    have hc := numFloatCore_ne_nil hfc
    simp only [Option.some.injEq, Prod.mk.injEq] at h
    obtain ⟨h1, _⟩ := h
    subst h1
    have := List.length_pos.mpr hc
    simp only [List.length_append]
    omega

theorem matchIdent_pos {l txt : List Char} (h : matchIdent l = some txt) : 0 < txt.length := by
  unfold matchIdent at h
  match l with
  | [] => cases h
  | c :: rest =>
    dsimp only at h
    split at h
    · simp only [Option.some.injEq] at h
      subst h
      simp
    · cases h

/-- Drop-index bookkeeping for one step of the tokenizer loop. -/
theorem string_text_step {j s k : Nat} {rest : List Char} (c : Char)
    (hk : 1 ≤ k) (hjs : j + k ≤ s) :
    (c :: rest).drop (s - j + 1) = (rest.drop (k - 1)).drop (s - (j + k) + 1) := by
  calc (c :: rest).drop (s - j + 1) = rest.drop (s - j) := by rw [List.drop_succ_cons]
    _ = (rest.drop (k - 1)).drop (s - (j + k) + 1) := by
        rw [List.drop_drop]
        congr 1
        omega

/-- A string token found anywhere in the scanning loop starts at or after the
loop position, and its text is its quote character followed by the quote scan
of the characters after its start. -/
theorem tokLoop_string_text :
    ∀ (fuel : Nat) (cs : List Char) (i j : Nat) (t : Token), t ∈ tokLoop i fuel cs j →
      t.type = TokType.STRING ∨ t.type = TokType.DOUBLE_STRING →
      j ≤ t.start ∧ t.text = quoteOf t :: (scanStr (quoteOf t) (cs.drop (t.start - j + 1))).1 := by
  intro fuel
  induction fuel with
  | zero =>
    intro cs i j t hmem
    rw [tokLoop.eq_def] at hmem
    cases hmem
  | succ fuel ih =>
    intro cs i j t hmem hstr
    match cs with
    | [] =>
      rw [tokLoop.eq_def] at hmem
      cases hmem
    | c :: rest =>
      have htail : ∀ (k : Nat), 1 ≤ k → t ∈ tokLoop i fuel (rest.drop (k - 1)) (j + k) →
          j ≤ t.start ∧
            t.text = quoteOf t :: (scanStr (quoteOf t) ((c :: rest).drop (t.start - j + 1))).1 := by
        intro k hk hmem2
        obtain ⟨h1, h2⟩ := ih (rest.drop (k - 1)) i (j + k) t hmem2 hstr
        refine ⟨by omega, ?_⟩
        rw [h2, string_text_step c hk h1]
      rw [tokLoop.eq_def] at hmem
      dsimp only at hmem
      by_cases h1 : c = ' ' ∨ c = '\t'
      · rw [if_pos h1] at hmem
        exact htail 1 le_rfl hmem
      rw [if_neg h1] at hmem
      by_cases h2 : c = '{'
      · rw [if_pos h2] at hmem
        rcases List.mem_cons.mp hmem with rfl | hmem2
        · simp at hstr
        · exact htail 1 le_rfl hmem2
      rw [if_neg h2] at hmem
      by_cases h3 : c = '}'
      · rw [if_pos h3] at hmem
        rcases List.mem_cons.mp hmem with rfl | hmem2
        · simp at hstr
        · exact htail 1 le_rfl hmem2
      rw [if_neg h3] at hmem
      by_cases h4 : c = ':'
      · rw [if_pos h4] at hmem
        rcases List.mem_cons.mp hmem with rfl | hmem2
        · simp at hstr
        · exact htail 1 le_rfl hmem2
      rw [if_neg h4] at hmem
      by_cases h5 : c = '='
      · rw [if_pos h5] at hmem
        rcases List.mem_cons.mp hmem with rfl | hmem2
        · simp at hstr
        · exact htail 1 le_rfl hmem2
      rw [if_neg h5] at hmem
      by_cases h6 : c = '.'
      · rw [if_pos h6] at hmem
        rcases List.mem_cons.mp hmem with rfl | hmem2
        · simp at hstr
        · exact htail 1 le_rfl hmem2
      rw [if_neg h6] at hmem
      by_cases h7 : c = '['
      · rw [if_pos h7] at hmem
        rcases List.mem_cons.mp hmem with rfl | hmem2
        · simp at hstr
        · exact htail 1 le_rfl hmem2
      rw [if_neg h7] at hmem
      by_cases h8 : c = ']'
      · rw [if_pos h8] at hmem
        rcases List.mem_cons.mp hmem with rfl | hmem2
        · simp at hstr
        · exact htail 1 le_rfl hmem2
      rw [if_neg h8] at hmem
      by_cases h9 : c = '\x27'
      · rw [if_pos h9] at hmem
        rcases List.mem_cons.mp hmem with rfl | hmem2
        · subst h9
          exact ⟨le_rfl, by simp [quoteOf]⟩
        · have hk1 : ((scanStr '\x27' rest).1.length + 1) - 1
              = (scanStr '\x27' rest).1.length := by omega
          have hk2 : j + ((scanStr '\x27' rest).1.length + 1)
              = j + 1 + (scanStr '\x27' rest).1.length := by omega
          exact htail ((scanStr '\x27' rest).1.length + 1) (by omega)
            (by rw [hk1, hk2]; exact hmem2)
      rw [if_neg h9] at hmem
      by_cases h10 : c = '"'
      · rw [if_pos h10] at hmem
        rcases List.mem_cons.mp hmem with rfl | hmem2
        · subst h10
          exact ⟨le_rfl, by simp [quoteOf]⟩
        · have hk1 : ((scanStr '"' rest).1.length + 1) - 1
              = (scanStr '"' rest).1.length := by omega
          have hk2 : j + ((scanStr '"' rest).1.length + 1)
              = j + 1 + (scanStr '"' rest).1.length := by omega
          exact htail ((scanStr '"' rest).1.length + 1) (by omega)
            (by rw [hk1, hk2]; exact hmem2)
      rw [if_neg h10] at hmem
      cases hnum : matchNum (c :: rest) with
      | some p =>
        obtain ⟨txt, isF⟩ := p
        rw [hnum] at hmem
        have hpos := matchNum_pos hnum
        dsimp only at hmem
        rcases List.mem_cons.mp hmem with rfl | hmem2
        · cases isF <;> simp at hstr
        · exact htail txt.length hpos hmem2
      | none =>
        rw [hnum] at hmem
        dsimp only at hmem
        cases hid : matchIdent (c :: rest) with
        | some txt =>
          rw [hid] at hmem
          have hpos := matchIdent_pos hid
          dsimp only at hmem
          rcases List.mem_cons.mp hmem with rfl | hmem2
          · simp at hstr
          · exact htail txt.length hpos hmem2
        | none =>
          rw [hid] at hmem
          dsimp only at hmem
          rcases List.mem_cons.mp hmem with rfl | hmem2
          · simp at hstr
          · exact htail 1 le_rfl hmem2

/-- Every string token produced by tokenizing a line carries as text its quote
character followed by exactly the characters its quote scan consumed, scanned
from the column after its start within the pre-comment portion of the line. -/
theorem tokenizeLine_string_text {i : Nat} {l : Line} {t : Token}
    (hmem : t ∈ tokenizeLine i l)
    (hstr : t.type = TokType.STRING ∨ t.type = TokType.DOUBLE_STRING) :
    t.text = quoteOf t ::
      (scanStr (quoteOf t)
        ((l.take (match commentIdx l with | some k => k | none => l.length)).drop
          (t.start + 1))).1 := by
  rw [tokenizeLine.eq_def] at hmem
  cases hci : commentIdx l with
  | some k =>
    rw [hci] at hmem
    dsimp only at hmem
    rcases List.mem_append.mp hmem with hmem2 | hmem2
    · have := tokLoop_string_text (l.take k).length (l.take k) i 0 t hmem2 hstr
      simpa using this.2
    · simp at hmem2
      rw [hmem2] at hstr
      simp at hstr
  | none =>
    rw [hci] at hmem
    dsimp only at hmem
    have := tokLoop_string_text l.length l i 0 t hmem hstr
    simpa using this.2

/-- Claim C8 (amended): a string token whose literal is unterminated within
the tokenized portion of its line has text that does not end with the matching
quote character, unless the text is the bare quote alone or ends in a doubled
(escaped) quote, in which cases it does end with the quote character. -/
theorem c8_unterminated_amended (i : Nat) (l : Line) (t : Token)
    (hmem : t ∈ tokenizeLine i l)
    (hstr : t.type = TokType.STRING ∨ t.type = TokType.DOUBLE_STRING)
    (hopen : tokenScanClosed l t = false) :
    t.text.getLast? ≠ some (quoteOf t) ∨ t.text = [quoteOf t] ∨
      t.text.dropLast.getLast? = some (quoteOf t) := by
  have htext := tokenizeLine_string_text hmem hstr
  have hq : (if t.type = TokType.STRING then '\x27' else '"') = quoteOf t := rfl
  rw [tokenScanClosed] at hopen
  rw [hq] at hopen
  generalize hbody :
    (l.take (match commentIdx l with | some k => k | none => l.length)).drop
      (t.start + 1) = body at htext hopen
  rcases hr : (scanStr (quoteOf t) body).1 with _ | ⟨x, xs⟩
  · rw [hr] at htext
    exact Or.inr (Or.inl htext)
  by_cases hlast : (scanStr (quoteOf t) body).1.getLast? = some (quoteOf t)
  · obtain ⟨hge, hdl⟩ :=
      scanStr_unterminated_shape (quoteOf t) body.length body le_rfl hopen hlast
    refine Or.inr (Or.inr ?_)
    rw [htext, hr]
    rw [hr] at hdl hge
    rcases hxs : xs with _ | ⟨y, ys⟩
    · rw [hxs] at hge; simp at hge
    · rw [hxs] at hdl
      rw [show (quoteOf t :: x :: y :: ys).dropLast
          = quoteOf t :: (x :: y :: ys).dropLast from rfl]
      rw [show (x :: y :: ys).dropLast = x :: (y :: ys).dropLast from rfl] at hdl ⊢
      rcases hd : (y :: ys).dropLast with _ | ⟨z, zs⟩
      · rw [hd] at hdl
        simp at hdl
        subst hdl
        rfl
      · rw [hd] at hdl
        rw [List.getLast?_cons_cons]
        exact hdl
  · refine Or.inl ?_
    rw [htext, hr]
    rw [hr] at hlast
    rw [List.getLast?_cons_cons]
    simpa using hlast

/-- Claim C8 counterexample: the line consisting of three quote characters
tokenizes to a single unterminated string token whose text ends with the
matching quote character, contradicting the claim as stated. -/
theorem c8_unterminated_counterexample :
    tokenizeLine 0 lineTripleQuote = [⟨TokType.STRING, lineTripleQuote, 0, 0, 3⟩] ∧
    tokenScanClosed lineTripleQuote ⟨TokType.STRING, lineTripleQuote, 0, 0, 3⟩ = false ∧
    (⟨TokType.STRING, lineTripleQuote, 0, 0, 3⟩ : Token).text.getLast?
      = some (quoteOf ⟨TokType.STRING, lineTripleQuote, 0, 0, 3⟩) := by
  refine ⟨by decide, by decide, by decide⟩

/-- Claim C8 (amended) witness: on the line consisting of a quote followed by
two letters, the unterminated string token satisfies the amended property via
its first disjunct. -/
theorem c8_unterminated_amended_witness :
    ((⟨TokType.STRING, lineOpenQuote, 0, 0, 3⟩ : Token) ∈ tokenizeLine 0 lineOpenQuote ∧
     tokenScanClosed lineOpenQuote ⟨TokType.STRING, lineOpenQuote, 0, 0, 3⟩ = false) ∧
    ((⟨TokType.STRING, lineOpenQuote, 0, 0, 3⟩ : Token).text.getLast?
        ≠ some (quoteOf ⟨TokType.STRING, lineOpenQuote, 0, 0, 3⟩) ∨
      (⟨TokType.STRING, lineOpenQuote, 0, 0, 3⟩ : Token).text
        = [quoteOf ⟨TokType.STRING, lineOpenQuote, 0, 0, 3⟩] ∨
      (⟨TokType.STRING, lineOpenQuote, 0, 0, 3⟩ : Token).text.dropLast.getLast?
        = some (quoteOf ⟨TokType.STRING, lineOpenQuote, 0, 0, 3⟩)) :=
  ⟨⟨by decide, by decide⟩,
   c8_unterminated_amended 0 lineOpenQuote ⟨TokType.STRING, lineOpenQuote, 0, 0, 3⟩
     (by decide) (Or.inl (by decide)) (by decide)⟩

/-- The digit run never exceeds the input length. -/
theorem digitRun_le (l : List Char) : (digitRun l).length ≤ l.length :=
  (List.takeWhile_prefix Char.isDigit).length_le

/-- The quote scan consumes at most the whole remaining line. -/
theorem scanStr_length_le (q : Char) :
    ∀ (n : Nat) (cs : List Char), cs.length ≤ n → (scanStr q cs).1.length ≤ cs.length := by
  intro n
  induction n with
  | zero =>
    intro cs hlen
    match cs with
    | [] => simp [scanStr_nil]
    | c :: rest => simp at hlen
  | succ n ih =>
    intro cs hlen
    match cs with
    | [] => simp [scanStr_nil]
    | c :: rest =>
      by_cases hc : c = q
      · subst hc
        match rest with
        | [] => rw [scanStr_q_nil]
        | c2 :: rest2 =>
          by_cases hc2 : c2 = c
          · subst hc2
            rw [scanStr_qq]
            have := ih rest2 (by simp at hlen; omega)
            simp only [List.length_cons]
            omega
          · rw [scanStr_q_ne hc2]
            simp
      · rw [scanStr_cons_ne hc]
        have := ih rest (by simp at hlen; omega)
        simp only [List.length_cons]
        omega

/-- The float-core match never exceeds the input length. -/
theorem numFloatCore_le {l1 core : List Char} (h : numFloatCore l1 = some core) :
    core.length ≤ l1.length := by
  unfold numFloatCore at h
  split at h
  · rename_i hcond
    obtain ⟨hne, hdot⟩ := hcond
    simp only [Option.some.injEq] at h
    subst h
    have hd1 : (digitRun l1).length ≤ l1.length := digitRun_le l1
    have hnn : l1.drop (digitRun l1).length ≠ [] := by
      intro he
      rw [he] at hdot
      simp at hdot
    have hlt : (digitRun l1).length < l1.length := by
      by_contra hge
      exact hnn (List.drop_eq_nil_of_le (by omega))
    have hd2 : (digitRun ((l1.drop (digitRun l1).length).drop 1)).length
        ≤ ((l1.drop (digitRun l1).length).drop 1).length := digitRun_le _
    simp only [List.length_drop] at hd2
    simp only [List.length_append, List.length_cons]
    omega
  · split at h
    · rename_i hdot
      split at h
      · simp only [Option.some.injEq] at h
        subst h
        have hd : (digitRun (l1.drop 1)).length ≤ (l1.drop 1).length := digitRun_le _
        simp only [List.length_drop] at hd
        have hnn : l1 ≠ [] := by
          intro he
          rw [he] at hdot
          simp at hdot
        have := List.length_pos.mpr hnn
        simp only [List.length_cons]
        omega
      · cases h
    · cases h

/-- A numeric-literal match never exceeds the input length. -/
theorem matchNum_le {l txt : List Char} {b : Bool} (h : matchNum l = some (txt, b)) :
    txt.length ≤ l.length := by
  unfold matchNum at h
  dsimp only at h
  by_cases hm : l.head? = some '-'
  · rw [if_pos hm, if_pos hm] at h
    have hlpos : 0 < l.length := by
      cases l with
      | nil => simp at hm
      | cons a as => simp
    cases hfc : numFloatCore (l.drop 1) with
    | none =>
      rw [hfc] at h
      dsimp only at h
      split at h
      · simp only [Option.some.injEq, Prod.mk.injEq] at h
        obtain ⟨h1, h2⟩ := h
        subst h1
        have := digitRun_le (l.drop 1)
        simp only [List.length_drop] at this
        simp only [List.length_append, List.length_cons, List.length_nil]
        omega
      · exact Option.noConfusion h
    | some core =>
      rw [hfc] at h
      dsimp only at h
      have hcle := numFloatCore_le hfc
      simp only [List.length_drop] at hcle
      split at h
      · rename_i hfh
        simp only [Option.some.injEq, Prod.mk.injEq] at h
        obtain ⟨h1, h2⟩ := h
        subst h1
        have hnn : l.drop ((['-'] : List Char).length + core.length) ≠ [] := by
          intro he
          rw [he] at hfh
          simp at hfh
        have hlt : (['-'] : List Char).length + core.length < l.length := by
          by_contra hge
          exact hnn (List.drop_eq_nil_of_le (by omega))
        simp only [List.length_cons, List.length_nil] at hlt
        simp only [List.length_append, List.length_cons, List.length_nil]
        omega
      · simp only [Option.some.injEq, Prod.mk.injEq] at h
        obtain ⟨h1, h2⟩ := h
        subst h1
        simp only [List.length_append, List.length_cons, List.length_nil]
        omega
  · rw [if_neg hm, if_neg hm] at h
    cases hfc : numFloatCore l with
    | none =>
      rw [hfc] at h
      dsimp only at h
      split at h
      · simp only [Option.some.injEq, Prod.mk.injEq] at h
        obtain ⟨h1, h2⟩ := h
        subst h1
        have := digitRun_le l
        simp only [List.length_append, List.length_nil]
        omega
      · exact Option.noConfusion h
    | some core =>
      rw [hfc] at h
      dsimp only at h
      have hcle := numFloatCore_le hfc
      split at h
      · rename_i hfh
        simp only [Option.some.injEq, Prod.mk.injEq] at h
        obtain ⟨h1, h2⟩ := h
        subst h1
        have hnn : l.drop ((([] : List Char)).length + core.length) ≠ [] := by
          intro he
          rw [he] at hfh
          simp at hfh
        have hlt : (([] : List Char)).length + core.length < l.length := by
          by_contra hge
          exact hnn (List.drop_eq_nil_of_le (by omega))
        simp only [List.length_nil] at hlt
        simp only [List.length_append, List.length_cons, List.length_nil]
        omega
      · simp only [Option.some.injEq, Prod.mk.injEq] at h
        obtain ⟨h1, h2⟩ := h
        subst h1
        simp only [List.length_append, List.length_nil]
        omega

/-- An identifier match never exceeds the input length. -/
theorem matchIdent_le {l txt : List Char} (h : matchIdent l = some txt) :
    txt.length ≤ l.length := by
  unfold matchIdent at h
  match l with
  | [] => cases h
  | c :: rest =>
    dsimp only at h
    split at h
    · simp only [Option.some.injEq] at h
      subst h
      have : (rest.takeWhile (fun d => d.isAlpha || d.isDigit || d = '_' || d = '-')).length
          ≤ rest.length := (List.takeWhile_prefix _).length_le
      simp only [List.length_cons]
      omega
    · cases h

/-- One cons step of the scanning-loop invariant. -/
theorem tokLoop_inv_step {i fuel j js cslen : Nat} {cs2 : List Char} (tok : Token)
    (hstart : tok.start = j) (hstop : tok.stop = js)
    (hgt : j < js) (hlen : js + cs2.length ≤ j + cslen)
    (hty : tok.type ≠ TokType.COMMENT)
    (ihb : ∀ t ∈ tokLoop i fuel cs2 js,
      js ≤ t.start ∧ t.start < t.stop ∧ t.stop ≤ js + cs2.length ∧ t.type ≠ TokType.COMMENT)
    (ihp : (tokLoop i fuel cs2 js).Pairwise fun a b => a.stop ≤ b.start) :
    (∀ t ∈ tok :: tokLoop i fuel cs2 js,
      j ≤ t.start ∧ t.start < t.stop ∧ t.stop ≤ j + cslen ∧ t.type ≠ TokType.COMMENT)
    ∧ (tok :: tokLoop i fuel cs2 js).Pairwise fun a b => a.stop ≤ b.start := by
  constructor
  · intro t ht
    rcases List.mem_cons.mp ht with rfl | ht2
    · exact ⟨by omega, by omega, by omega, hty⟩
    · obtain ⟨hb1, hb2, hb3, hb4⟩ := ihb t ht2
      exact ⟨by omega, hb2, by omega, hb4⟩
  · rw [List.pairwise_cons]
    refine ⟨fun b hb => ?_, ihp⟩
    obtain ⟨hb1, _, _, _⟩ := ihb b hb
    omega

/-- Scanning-loop invariant: every produced token starts at or after the
loop position, spans a nonempty range ending within the scanned characters,
is not a comment token, and consecutive tokens do not overlap. -/
theorem tokLoop_inv :
    ∀ (fuel : Nat) (cs : List Char) (i j : Nat),
      (∀ t ∈ tokLoop i fuel cs j,
        j ≤ t.start ∧ t.start < t.stop ∧ t.stop ≤ j + cs.length ∧ t.type ≠ TokType.COMMENT)
      ∧ (tokLoop i fuel cs j).Pairwise fun a b => a.stop ≤ b.start := by
  intro fuel
  induction fuel with
  | zero =>
    intro cs i j
    rw [tokLoop.eq_def]
    exact ⟨fun t ht => absurd ht (List.not_mem_nil t), List.Pairwise.nil⟩
  | succ fuel ih =>
    intro cs i j
    match cs with
    | [] =>
      rw [tokLoop.eq_def]
      exact ⟨fun t ht => absurd ht (List.not_mem_nil t), List.Pairwise.nil⟩
    | c :: rest =>
      rw [tokLoop.eq_def]
      dsimp only
      by_cases h1 : c = ' ' ∨ c = '\t'
      · rw [if_pos h1]
        obtain ⟨ihb, ihp⟩ := ih rest i (j + 1)
        refine ⟨fun t ht => ?_, ihp⟩
        obtain ⟨hb1, hb2, hb3, hb4⟩ := ihb t ht
        exact ⟨by omega, hb2, by simp only [List.length_cons]; omega, hb4⟩
      rw [if_neg h1]
      by_cases h2 : c = '\x7b'
      · rw [if_pos h2]
        obtain ⟨ihb, ihp⟩ := ih rest i (j + 1)
        exact tokLoop_inv_step _ rfl rfl (by omega)
          (by simp only [List.length_cons]; omega) (fun hco => TokType.noConfusion hco) ihb ihp
      rw [if_neg h2]
      by_cases h3 : c = '\x7d'
      · rw [if_pos h3]
        obtain ⟨ihb, ihp⟩ := ih rest i (j + 1)
        exact tokLoop_inv_step _ rfl rfl (by omega)
          (by simp only [List.length_cons]; omega) (fun hco => TokType.noConfusion hco) ihb ihp
      rw [if_neg h3]
      by_cases h4 : c = ':'
      · rw [if_pos h4]
        obtain ⟨ihb, ihp⟩ := ih rest i (j + 1)
        exact tokLoop_inv_step _ rfl rfl (by omega)
          (by simp only [List.length_cons]; omega) (fun hco => TokType.noConfusion hco) ihb ihp
      rw [if_neg h4]
      by_cases h5 : c = '='
      · rw [if_pos h5]
        obtain ⟨ihb, ihp⟩ := ih rest i (j + 1)
        exact tokLoop_inv_step _ rfl rfl (by omega)
          (by simp only [List.length_cons]; omega) (fun hco => TokType.noConfusion hco) ihb ihp
      rw [if_neg h5]
      by_cases h6 : c = '.'
      · rw [if_pos h6]
        obtain ⟨ihb, ihp⟩ := ih rest i (j + 1)
        exact tokLoop_inv_step _ rfl rfl (by omega)
          (by simp only [List.length_cons]; omega) (fun hco => TokType.noConfusion hco) ihb ihp
      rw [if_neg h6]
      by_cases h7 : c = '['
      · rw [if_pos h7]
        obtain ⟨ihb, ihp⟩ := ih rest i (j + 1)
        exact tokLoop_inv_step _ rfl rfl (by omega)
          (by simp only [List.length_cons]; omega) (fun hco => TokType.noConfusion hco) ihb ihp
      rw [if_neg h7]
      by_cases h8 : c = ']'
      · rw [if_pos h8]
        obtain ⟨ihb, ihp⟩ := ih rest i (j + 1)
        exact tokLoop_inv_step _ rfl rfl (by omega)
          (by simp only [List.length_cons]; omega) (fun hco => TokType.noConfusion hco) ihb ihp
      rw [if_neg h8]
      by_cases h9 : c = '\x27'
      · rw [if_pos h9]
        have hsl := scanStr_length_le '\x27' rest.length rest le_rfl
        obtain ⟨ihb, ihp⟩ :=
          ih (rest.drop (scanStr '\x27' rest).1.length) i (j + 1 + (scanStr '\x27' rest).1.length)
        exact tokLoop_inv_step _ rfl rfl (by omega)
          (by simp only [List.length_drop, List.length_cons]; omega)
          (fun hco => TokType.noConfusion hco) ihb ihp
      rw [if_neg h9]
      by_cases h10 : c = '"'
      · rw [if_pos h10]
        have hsl := scanStr_length_le '"' rest.length rest le_rfl
        obtain ⟨ihb, ihp⟩ :=
          ih (rest.drop (scanStr '"' rest).1.length) i (j + 1 + (scanStr '"' rest).1.length)
        exact tokLoop_inv_step _ rfl rfl (by omega)
          (by simp only [List.length_drop, List.length_cons]; omega)
          (fun hco => TokType.noConfusion hco) ihb ihp
      rw [if_neg h10]
      cases hnum : matchNum (c :: rest) with
      | some p =>
        obtain ⟨txt, isF⟩ := p
        dsimp only
        have hpos := matchNum_pos hnum
        have hle := matchNum_le hnum
        simp only [List.length_cons] at hle
        obtain ⟨ihb, ihp⟩ := ih (rest.drop (txt.length - 1)) i (j + txt.length)
        refine tokLoop_inv_step _ rfl rfl (by omega)
          (by simp only [List.length_drop, List.length_cons]; omega)
          ?_ ihb ihp
        cases isF <;> exact fun hco => TokType.noConfusion hco
      | none =>
        dsimp only
        cases hid : matchIdent (c :: rest) with
        | some txt =>
          dsimp only
          have hpos := matchIdent_pos hid
          have hle := matchIdent_le hid
          simp only [List.length_cons] at hle
          obtain ⟨ihb, ihp⟩ := ih (rest.drop (txt.length - 1)) i (j + txt.length)
          exact tokLoop_inv_step _ rfl rfl (by omega)
            (by simp only [List.length_drop, List.length_cons]; omega)
            (fun hco => TokType.noConfusion hco) ihb ihp
        | none =>
          dsimp only
          obtain ⟨ihb, ihp⟩ := ih rest i (j + 1)
          exact tokLoop_inv_step _ rfl rfl (by omega)
            (by simp only [List.length_cons]; omega)
            (fun hco => TokType.noConfusion hco) ihb ihp

/-- A comment marker found at index `k` leaves at least the two slash
characters inside the line. -/
theorem commentIdx_lt : ∀ {l : Line} {k : Nat}, commentIdx l = some k → k + 2 ≤ l.length := by
  intro l
  induction l with
  | nil => intro k h; cases h
  | cons c1 rest ih =>
    intro k h
    cases rest with
    | nil => cases h
    | cons c2 rest2 =>
      simp only [commentIdx] at h
      split at h
      · simp only [Option.some.injEq] at h
        subst h
        simp only [List.length_cons]
        omega
      · cases hc : commentIdx (c2 :: rest2) with
        | none => rw [hc] at h; cases h
        | some k2 =>
          rw [hc] at h
          simp only [Option.map_some', Option.some.injEq] at h
          subst h
          have := ih hc
          simp only [List.length_cons] at this ⊢
          omega

/-- Per-line tokenizer invariants: nonempty in-bounds spans, pairwise
disjointness in order, and no comment token before the last position. -/
theorem tokenizeLine_inv (i : Nat) (l : Line) :
    (∀ t ∈ tokenizeLine i l, t.start < t.stop ∧ t.stop ≤ l.length)
    ∧ ((tokenizeLine i l).Pairwise fun a b => a.stop ≤ b.start)
    ∧ (∀ t ∈ (tokenizeLine i l).dropLast, t.type ≠ TokType.COMMENT) := by
  rw [tokenizeLine.eq_def]
  cases hci : commentIdx l with
  | some k =>
    dsimp only
    have hk2 := commentIdx_lt hci
    obtain ⟨hb, hp⟩ := tokLoop_inv (l.take k).length (l.take k) i 0
    have htk : (l.take k).length = k := by
      rw [List.length_take]
      omega
    refine ⟨?_, ?_, ?_⟩
    · intro t ht
      rcases List.mem_append.mp ht with ht2 | ht2
      · obtain ⟨hb1, hb2, hb3, hb4⟩ := hb t ht2
        rw [htk] at hb3
        exact ⟨hb2, by omega⟩
      · simp only [List.mem_singleton] at ht2
        subst ht2
        exact ⟨by dsimp only; omega, le_rfl⟩
    · rw [List.pairwise_append]
      refine ⟨hp, List.pairwise_singleton _ _, ?_⟩
      intro a ha b hbm
      simp only [List.mem_singleton] at hbm
      subst hbm
      obtain ⟨_, _, hb3, _⟩ := hb a ha
      rw [htk] at hb3
      have h3 : a.stop ≤ k := by omega
      exact h3
    · rw [List.dropLast_concat]
      intro t ht
      exact (hb t ht).2.2.2
  | none =>
    dsimp only
    obtain ⟨hb, hp⟩ := tokLoop_inv l.length l i 0
    refine ⟨?_, hp, ?_⟩
    · intro t ht
      obtain ⟨hb1, hb2, hb3, hb4⟩ := hb t ht
      exact ⟨hb2, by omega⟩
    · intro t ht
      exact (hb t (List.mem_of_mem_dropLast ht)).2.2.2

/-- One token list per line. -/
theorem tokenizeAux_length : ∀ (doc : Doc) (i : Nat),
    (tokenizeAux i doc).length = doc.length := by
  intro doc
  induction doc with
  | nil => intro i; rfl
  | cons l ls ih =>
    intro i
    simp only [tokenizeAux, List.length_cons, ih]

/-- The `k`-th token list is the tokenization of the `k`-th line. -/
theorem tokenizeAux_get? : ∀ (doc : Doc) (i k : Nat),
    (tokenizeAux i doc).get? k = (doc.get? k).map (tokenizeLine (i + k)) := by
  intro doc
  induction doc with
  | nil => intro i k; simp [tokenizeAux]
  | cons l ls ih =>
    intro i k
    cases k with
    | zero => simp [tokenizeAux]
    | succ k =>
      simp only [tokenizeAux, List.get?_cons_succ]
      rw [ih (i + 1) k]
      have he : i + 1 + k = i + (k + 1) := by omega
      rw [he]

/-- Claim C10: `tokenize` returns exactly one token list per document line
(the `k`-th being the tokenization of the `k`-th line); within each line's
list every token satisfies `start < stop ≤ line length`, token spans are
pairwise disjoint with strictly increasing start columns, and only the final
token of a line can be a comment token. -/
theorem c10_tokenizer_invariants (doc : Doc) :
    ((tokenize doc).length = doc.length ∧
      ∀ (k : Nat) (hk : k < doc.length),
        (tokenize doc).get? k = some (tokenizeLine k (doc.get ⟨k, hk⟩))) ∧
    ∀ (i : Nat) (l : Line),
      (∀ t ∈ tokenizeLine i l, t.start < t.stop ∧ t.stop ≤ l.length) ∧
      ((tokenizeLine i l).Pairwise fun a b => a.stop ≤ b.start ∧ a.start < b.start) ∧
      (∀ t ∈ (tokenizeLine i l).dropLast, t.type ≠ TokType.COMMENT) := by
  refine ⟨⟨tokenizeAux_length doc 0, fun k hk => ?_⟩, fun i l => ?_⟩
  · rw [tokenize, tokenizeAux_get?, List.get?_eq_get hk]
    simp only [Option.map_some', Option.some.injEq]
    rw [Nat.zero_add]
  · obtain ⟨hb, hp, hc⟩ := tokenizeLine_inv i l
    refine ⟨hb, ?_, hc⟩
    have himp : ∀ a b : Token, a ∈ tokenizeLine i l → b ∈ tokenizeLine i l →
        a.stop ≤ b.start → a.stop ≤ b.start ∧ a.start < b.start := by
      intro a b ha hbm hr
      obtain ⟨ha1, _⟩ := hb a ha
      exact ⟨hr, by omega⟩
    exact List.Pairwise.imp_of_mem (fun ha hbm hr => himp _ _ ha hbm hr) hp

/-- Claim C10 witness: on scenario 1's document, line index 1 is in range
and its token list is the tokenization of the line `x = 1`. -/
theorem c10_tokenizer_invariants_witness :
    1 < docScenario1.length ∧
    (tokenize docScenario1).get? 1
      = some (tokenizeLine 1 (docScenario1.get ⟨1, by decide⟩)) :=
  ⟨by decide, (c10_tokenizer_invariants docScenario1).1.2 1 (by decide)⟩

/-- Unfolding lemmas for the mutual node-count functions. -/
theorem endCountL_nil : endCountL [] = 0 := by rw [endCountL.eq_def]

theorem endCountL_cons (n : Node) (l : List Node) :
    endCountL (n :: l) = endCountN n + endCountL l := by rw [endCountL.eq_def]

theorem unclosedCountL_nil : unclosedCountL [] = 0 := by rw [unclosedCountL.eq_def]

theorem unclosedCountL_cons (n : Node) (l : List Node) :
    unclosedCountL (n :: l) = unclosedCountN n + unclosedCountL l := by
  rw [unclosedCountL.eq_def]

theorem endCountL_append (a b : List Node) :
    endCountL (a ++ b) = endCountL a + endCountL b := by
  induction a with
  | nil => rw [List.nil_append, endCountL_nil, Nat.zero_add]
  | cons n rest ih =>
    rw [List.cons_append, endCountL_cons, endCountL_cons, ih]
    omega

theorem unclosedCountL_append (a b : List Node) :
    unclosedCountL (a ++ b) = unclosedCountL a + unclosedCountL b := by
  induction a with
  | nil => rw [List.nil_append, unclosedCountL_nil, Nat.zero_add]
  | cons n rest ih =>
    rw [List.cons_append, unclosedCountL_cons, unclosedCountL_cons, ih]
    omega

theorem attach_inv {root : List Node} {stack : List P4.Frame} {n : Node}
    (hn1 : endCountN n = 0) (hn2 : unclosedCountN n = 0)
    (hre : endCountL root = 0) (hru : unclosedCountL root = 0)
    (hfr : ∀ f ∈ stack, endCountL f.children = 0 ∧ unclosedCountL f.children = 0) :
    endCountL (P4.attachChild root stack n).1 = 0 ∧
    unclosedCountL (P4.attachChild root stack n).1 = 0 ∧
    (P4.attachChild root stack n).2.length = stack.length ∧
    ∀ f ∈ (P4.attachChild root stack n).2,
      endCountL f.children = 0 ∧ unclosedCountL f.children = 0 := by
  cases stack with
  | nil =>
    simp only [P4.attachChild]
    refine ⟨?_, ?_, by trivial, fun f hf => absurd hf (List.not_mem_nil f)⟩
    · rw [endCountL_append, endCountL_cons, endCountL_nil]
      omega
    · rw [unclosedCountL_append, unclosedCountL_cons, unclosedCountL_nil]
      omega
  | cons f fs =>
    simp only [P4.attachChild]
    obtain ⟨hf1, hf2⟩ := hfr f (List.mem_cons_self f fs)
    refine ⟨hre, hru, by simp, ?_⟩
    intro g hg
    rcases List.mem_cons.mp hg with rfl | hg2
    · dsimp only
      constructor
      · rw [endCountL_append, endCountL_cons, endCountL_nil]
        omega
      · rw [unclosedCountL_append, unclosedCountL_cons, unclosedCountL_nil]
        omega
    · exact hfr g (List.mem_cons_of_mem f hg2)

theorem endCountN_block (s : Nat) (hd : Header) (c : List Node) (hi rci : Nat)
    (e : Option Nat) : endCountN (.block s hd c hi rci e) = endCountL c := by
  rw [endCountN.eq_def]

theorem unclosedCountN_block (s : Nat) (hd : Header) (c : List Node) (hi rci : Nat)
    (e : Option Nat) :
    unclosedCountN (.block s hd c hi rci e)
      = (if e = none then 1 else 0) + unclosedCountL c := by
  rw [unclosedCountN.eq_def]

/-- Main invariant for the parser.ts line loop: starting from a state whose
root nodes contain no `End` node and no unclosed block and whose open frames
all carry clean children, a remaining line sequence whose block markers are
balanced against the stack depth finishes with no `End` node and no unclosed
block. -/
theorem runLines_balanced (tabWidth indentLevel : Nat) :
    ∀ (ls : Doc) (i : Nat) (root : List Node) (stack : List P4.Frame),
      balancedFrom (ls.map lineMarker) stack.length = true →
      endCountL root = 0 → unclosedCountL root = 0 →
      (∀ f ∈ stack, endCountL f.children = 0 ∧ unclosedCountL f.children = 0) →
      endCountL (P4.finish (P4.runLines tabWidth indentLevel i ls (root, stack))) = 0 ∧
      unclosedCountL (P4.finish (P4.runLines tabWidth indentLevel i ls (root, stack))) = 0 := by
  intro ls
  induction ls with
  | nil =>
    intro i root stack hbal hre hru hfr
    rw [P4.runLines]
    simp only [List.map_nil, balancedFrom, decide_eq_true_eq] at hbal
    have h0 : stack = [] := List.length_eq_zero.mp hbal
    subst h0
    rw [P4.finish]
    exact ⟨hre, hru⟩
  | cons l rest ih =>
    intro i root stack hbal hre hru hfr
    rw [List.map_cons] at hbal
    rw [P4.runLines]
    by_cases ht0 : trim l = []
    · have hm : lineMarker l = none := by
        unfold lineMarker
        dsimp only
        rw [if_pos ht0]
      rw [hm] at hbal
      simp only [balancedFrom] at hbal
      have hstep : P4.step tabWidth indentLevel i l (root, stack) = (root, stack) := by
        unfold P4.step
        dsimp only
        rw [if_pos ht0]
      rw [hstep]
      exact ih (i + 1) root stack hbal hre hru hfr
    by_cases htc : "//".data.isPrefixOf (trim l) = true
    · have hm : lineMarker l = none := by
        unfold lineMarker
        dsimp only
        rw [if_neg ht0, if_pos htc]
      rw [hm] at hbal
      simp only [balancedFrom] at hbal
      have hstep : P4.step tabWidth indentLevel i l (root, stack) = (root, stack) := by
        unfold P4.step
        dsimp only
        rw [if_neg ht0, if_pos htc]
      rw [hstep]
      exact ih (i + 1) root stack hbal hre hru hfr
    cases hcol : findColonFrom (afterBeginMatches cond4) l 0 with
    | some p =>
      have hm : lineMarker l = some true := by
        unfold lineMarker
        dsimp only
        rw [if_neg ht0, if_neg htc, hcol]
        rfl
      rw [hm] at hbal
      simp only [balancedFrom] at hbal
      have hstep : P4.step tabWidth indentLevel i l (root, stack)
          = (root, (⟨i, ⟨i, (P4.headerData l p tabWidth).2.1,
              ((P4.headerData l p tabWidth).2.2).bind parseParams,
              (P4.headerData l p tabWidth).2.2, (P4.headerData l p tabWidth).1⟩, [],
              (P4.headerData l p tabWidth).1,
              (P4.headerData l p tabWidth).1 + indentLevel⟩ : P4.Frame) :: stack) := by
        unfold P4.step
        dsimp only
        rw [if_neg ht0, if_neg htc, hcol]
      rw [hstep]
      refine ih (i + 1) root (_ :: stack) hbal hre hru ?_
      intro f hf
      rcases List.mem_cons.mp hf with rfl | hf2
      · exact ⟨endCountL_nil, unclosedCountL_nil⟩
      · exact hfr f hf2
    | none =>
      by_cases hend : trim l = "struct.end".data
      · have hm : lineMarker l = some false := by
          unfold lineMarker
          dsimp only
          rw [if_neg ht0, if_neg htc, hcol,
            if_neg (show ¬((none : Option Nat).isSome = true) by simp), if_pos hend]
        rw [hm] at hbal
        simp only [balancedFrom, Bool.and_eq_true, decide_eq_true_eq] at hbal
        obtain ⟨hne, hbal2⟩ := hbal
        cases stack with
        | nil => simp at hne
        | cons f fs =>
          have hstep : P4.step tabWidth indentLevel i l (root, f :: fs)
              = P4.attachChild root fs (P4.closeFrame f (some i)) := by
            unfold P4.step
            dsimp only
            rw [if_neg ht0, if_neg htc, hcol, if_pos hend]
          rw [hstep]
          obtain ⟨hf1, hf2⟩ := hfr f (List.mem_cons_self f fs)
          have hc1 : endCountN (P4.closeFrame f (some i)) = 0 := by
            rw [P4.closeFrame, endCountN_block]
            exact hf1
          have hc2 : unclosedCountN (P4.closeFrame f (some i)) = 0 := by
            rw [P4.closeFrame, unclosedCountN_block]
            simp only [if_neg (show ¬(some i = none) from Option.noConfusion)]
            omega
          obtain ⟨ha1, ha2, ha3, ha4⟩ :=
            attach_inv hc1 hc2 hre hru (fun g hg => hfr g (List.mem_cons_of_mem f hg))
          exact ih (i + 1) (P4.attachChild root fs (P4.closeFrame f (some i))).1
            (P4.attachChild root fs (P4.closeFrame f (some i))).2
            (by rw [ha3]; exact hbal2) ha1 ha2 ha4
      · have hm : lineMarker l = none := by
          unfold lineMarker
          dsimp only
          rw [if_neg ht0, if_neg htc, hcol,
            if_neg (show ¬((none : Option Nat).isSome = true) by simp), if_neg hend]
        rw [hm] at hbal
        simp only [balancedFrom] at hbal
        have hlow1 : endCountN (P4.lowTail tabWidth i l) = 0 := by
          unfold P4.lowTail
          split <;> rw [endCountN.eq_def]
        have hlow2 : unclosedCountN (P4.lowTail tabWidth i l) = 0 := by
          unfold P4.lowTail
          split <;> rw [unclosedCountN.eq_def]
        have hstep : ∃ n, P4.step tabWidth indentLevel i l (root, stack)
            = P4.attachChild root stack n ∧ endCountN n = 0 ∧ unclosedCountN n = 0 := by
          unfold P4.step
          dsimp only
          rw [if_neg ht0, if_neg htc, hcol, if_neg hend]
          dsimp only
          by_cases hcontains : l.contains '=' = true
          · rw [if_pos hcontains]
            cases hfi : (tokenizeLine i l).findIdx? (fun tk => tk.type = TokType.EQUAL) with
            | some e =>
              dsimp only
              by_cases he : 0 < e
              · rw [if_pos he]
                exact ⟨_, rfl, by rw [endCountN.eq_def], by rw [unclosedCountN.eq_def]⟩
              · rw [if_neg he]
                exact ⟨P4.lowTail tabWidth i l, rfl, hlow1, hlow2⟩
            | none =>
              exact ⟨P4.lowTail tabWidth i l, rfl, hlow1, hlow2⟩
          · rw [if_neg hcontains]
            exact ⟨P4.lowTail tabWidth i l, rfl, hlow1, hlow2⟩
        obtain ⟨n, hs, hn1, hn2⟩ := hstep
        rw [hs]
        obtain ⟨ha1, ha2, ha3, ha4⟩ := attach_inv hn1 hn2 hre hru hfr
        exact ih (i + 1) (P4.attachChild root stack n).1 (P4.attachChild root stack n).2
          (by rw [ha3]; exact hbal) ha1 ha2 ha4

/-- Claim C3: for every well-formed document (every `struct.begin` line has
exactly one matching `struct.end` with correct nesting), the parser.ts block
resolver produces zero orphan `End` nodes, and every `Block` node has its
`endLine` set (zero unclosed blocks). -/
theorem c3_wellformed_no_orphans (doc : Doc) (tabWidth indentLevel : Nat)
    (h : wellFormed doc = true) :
    endCountL (P4.buildAST doc tabWidth indentLevel) = 0 ∧
    unclosedCountL (P4.buildAST doc tabWidth indentLevel) = 0 := by
  unfold P4.buildAST
  exact runLines_balanced tabWidth indentLevel doc 0 [] [] h endCountL_nil unclosedCountL_nil
    (fun f hf => absurd hf (List.not_mem_nil f))

/-- Claim C3 witness: the balanced two-block document is well-formed and
its AST has no orphan `End` node and no unclosed block. -/
theorem c3_wellformed_no_orphans_witness :
    wellFormed docShallowNested = true ∧
    endCountL (P4.buildAST docShallowNested 2 2) = 0 ∧
    unclosedCountL (P4.buildAST docShallowNested 2 2) = 0 :=
  ⟨by decide, c3_wellformed_no_orphans docShallowNested 2 2 (by decide)⟩

/-- A line starting with two characters other than `Fo` differs from the
orphan-end message. -/
theorem take2_ne_orphan {a rest : Line} (h2 : 2 ≤ a.length)
    (hne : ¬ a.take 2 = msgOrphan.take 2) : a ++ rest ≠ msgOrphan := by
  intro he
  have h : (a ++ rest).take 2 = msgOrphan.take 2 := by rw [he]
  rw [List.take_append_of_le_length h2] at h
  exact hne h

/-- No other validator message coincides with the orphan-end message. -/
theorem msgFloating_ne (t : Line) : P1.msgFloating t ≠ msgOrphan := by
  rw [P1.msgFloating]
  simp only [List.append_assoc]
  exact take2_ne_orphan (by decide) (by decide)

theorem msgUnclosedStr_ne : P1.msgUnclosedStr ≠ msgOrphan := by decide

theorem msgUnexpectedBrace_ne : msgUnexpectedBrace ≠ msgOrphan := by decide

theorem msgUnexpectedBracket_ne : msgUnexpectedBracket ≠ msgOrphan := by decide

theorem msgOutOfOrder_ne : P1.msgOutOfOrder ≠ msgOrphan := by decide

theorem msgUnclosedTok_ne (t : Token) : msgUnclosedTok t ≠ msgOrphan := by
  rw [msgUnclosedTok]
  split <;> decide

theorem msgHeaderIndent_ne (n : Line) (e f : Nat) : msgHeaderIndent n e f ≠ msgOrphan := by
  rw [msgHeaderIndent]
  simp only [List.append_assoc]
  exact take2_ne_orphan (by decide) (by decide)

theorem msgNotClosed_ne (n : Line) : msgNotClosed n ≠ msgOrphan := by
  rw [msgNotClosed]
  simp only [List.append_assoc]
  exact take2_ne_orphan (by decide) (by decide)

theorem msgMalformedParams_ne (n h : Line) : P1.msgMalformedParams n h ≠ msgOrphan := by
  rw [P1.msgMalformedParams]
  simp only [List.append_assoc]
  exact take2_ne_orphan (by decide) (by decide)

theorem msgParamName_ne (k : Line) (bad : List Char) : P1.msgParamName k bad ≠ msgOrphan := by
  rw [P1.msgParamName]
  simp only [List.append_assoc]
  exact take2_ne_orphan (by decide) (by decide)

theorem msgParamEmpty_ne (k : Line) : P1.msgParamEmpty k ≠ msgOrphan := by
  rw [P1.msgParamEmpty]
  simp only [List.append_assoc]
  exact take2_ne_orphan (by decide) (by decide)

theorem msgNonSeq_ne (i1 i2 : Option Int) : P1.msgNonSeq i1 i2 ≠ msgOrphan := by
  rw [P1.msgNonSeq]
  simp only [List.append_assoc]
  exact take2_ne_orphan (by decide) (by decide)

theorem msgEmptyValue_ne (k : Line) : msgEmptyValue k ≠ msgOrphan := by
  rw [msgEmptyValue]
  simp only [List.append_assoc]
  exact take2_ne_orphan (by decide) (by decide)

theorem msgContentIndent_ne (n : Line) (e f : Nat) : msgContentIndent n e f ≠ msgOrphan := by
  rw [msgContentIndent]
  simp only [List.append_assoc]
  exact take2_ne_orphan (by decide) (by decide)

/-- The token-level pass never emits the orphan-end message. -/
theorem tokLinePass_noOrphan (doc : Doc) :
    ∀ (toks : List Token) (prev : Option Token) (ha : Bool) (brs : List Token)
      (ds : List Diag),
      (∀ d ∈ ds, d.message ≠ msgOrphan) →
      ∀ d ∈ (P1.tokLinePass doc toks prev ha brs ds).2, d.message ≠ msgOrphan := by
  intro toks
  induction toks with
  | nil =>
    intro prev ha brs ds hds d hd
    rw [P1.tokLinePass.eq_def] at hd
    exact hds d hd
  | cons t rest ih =>
    intro prev ha brs ds hds d hd
    rw [P1.tokLinePass.eq_def] at hd
    dsimp only at hd
    refine ih _ _ _ _ ?_ d hd
    intro d2 hd2
    rcases List.mem_append.mp hd2 with h12 | hbr
    rotate_left
    · repeat' split at hbr
      all_goals
        first
          | exact absurd hbr (List.not_mem_nil d2)
          | (rw [List.mem_singleton] at hbr
             subst hbr
             first
               | exact msgUnexpectedBrace_ne
               | exact msgUnexpectedBracket_ne)
    rcases List.mem_append.mp h12 with h11 | hstr
    rotate_left
    · rcases List.mem_append.mp hstr with hstr1 | hstr2
      · split at hstr1
        · rw [List.mem_singleton] at hstr1
          subst hstr1
          exact msgUnclosedStr_ne
        · exact absurd hstr1 (List.not_mem_nil d2)
      · split at hstr2
        · rw [List.mem_singleton] at hstr2
          subst hstr2
          exact msgUnclosedStr_ne
        · exact absurd hstr2 (List.not_mem_nil d2)
    rcases List.mem_append.mp h11 with hds2 | hfl
    · exact hds d2 hds2
    · repeat' split at hfl
      all_goals
        first
          | exact absurd hfl (List.not_mem_nil d2)
          | (rw [List.mem_singleton] at hfl
             subst hfl
             exact msgFloating_ne _)

/-- The whole token pass never emits the orphan-end message. -/
theorem tokenPass_noOrphan (doc : Doc) (lts : List (List Token)) :
    ∀ d ∈ P1.tokenPass doc lts, d.message ≠ msgOrphan := by
  have hfold : ∀ (ls2 : List (List Token)) (st : List Token × List Diag),
      (∀ d ∈ st.2, d.message ≠ msgOrphan) →
      ∀ d ∈ (ls2.foldl
          (fun (st : List Token × List Diag) toks =>
            P1.tokLinePass doc toks none false st.1 st.2) st).2,
        d.message ≠ msgOrphan := by
    intro ls2
    induction ls2 with
    | nil => intro st h d hd; exact h d hd
    | cons toks rest2 ih =>
      intro st h d hd
      rw [List.foldl_cons] at hd
      exact ih _ (fun d2 hd2 => tokLinePass_noOrphan doc toks none false st.1 st.2 h d2 hd2) d hd
  intro d hd
  rw [P1.tokenPass] at hd
  rcases List.mem_append.mp hd with h1 | h2
  · exact hfold lts ([], []) (fun d2 hd2 => absurd hd2 (List.not_mem_nil d2)) d h1
  · obtain ⟨t, ht, he⟩ := List.mem_map.mp h2
    subst he
    exact msgUnclosedTok_ne t

/-- Parameter diagnostics never carry the orphan-end message. -/
theorem paramDiags_noOrphan (doc : Doc) (s : Nat) (name : Line) (raw? : Option Line)
    (params? : Option (List (Line × Line))) :
    ∀ d ∈ P1.paramDiags doc s name raw? params?, d.message ≠ msgOrphan := by
  intro d hd
  cases raw? with
  | none =>
    rw [P1.paramDiags] at hd
    cases hd
  | some raw =>
    cases params? with
    | none =>
      rw [P1.paramDiags] at hd
      rw [List.mem_singleton] at hd
      subst hd
      exact msgMalformedParams_ne _ _
    | some ps =>
      rw [P1.paramDiags] at hd
      rw [List.mem_flatten] at hd
      obtain ⟨lst, hlst, hdin⟩ := hd
      obtain ⟨kv, hkv, he⟩ := List.mem_map.mp hlst
      subst he
      dsimp only at hdin
      rcases List.mem_append.mp hdin with h1 | h2
      · split at h1
        · rw [List.mem_singleton] at h1
          subst h1
          exact msgParamName_ne _ _
        · exact absurd h1 (List.not_mem_nil d)
      · split at h2
        · rw [List.mem_singleton] at h2
          subst h2
          exact msgParamEmpty_ne _
        · exact absurd h2 (List.not_mem_nil d)

/-- Array-index diagnostics never carry the orphan-end message. -/
theorem arrayLoop_noOrphan (doc : Doc) :
    ∀ (ps : List (Nat × Option Int)), ∀ d ∈ P1.arrayLoop doc ps, d.message ≠ msgOrphan := by
  intro ps
  induction ps with
  | nil =>
    intro d hd
    rw [P1.arrayLoop.eq_def] at hd
    cases hd
  | cons p rest ih =>
    intro d hd
    cases rest with
    | nil =>
      rw [P1.arrayLoop.eq_def] at hd
      dsimp only at hd
      cases hd
    | cons q rest2 =>
      obtain ⟨s1, i1⟩ := p
      obtain ⟨s2, i2⟩ := q
      rw [P1.arrayLoop.eq_def] at hd
      dsimp only at hd
      split at hd
      · rw [List.mem_singleton] at hd
        subst hd
        exact msgOutOfOrder_ne
      · rcases List.mem_append.mp hd with h1 | h2
        · split at h1
          · rw [List.mem_singleton] at h1
            subst h1
            exact msgNonSeq_ne _ _
          · exact absurd h1 (List.not_mem_nil d)
        · exact ih d h2

theorem arrayDiags_noOrphan (doc : Doc) (children : List Node) :
    ∀ d ∈ P1.arrayDiags doc children, d.message ≠ msgOrphan := by
  intro d hd
  rw [P1.arrayDiags] at hd
  split at hd
  · exact arrayLoop_noOrphan doc _ d hd
  · exact absurd hd (List.not_mem_nil d)

/-- A diagnostic of a child list comes from one of the children, checked
with the parent context. -/
theorem P1_checkNodeList_mem_rev {doc : Doc} {c : List Node} {pr : Line × Nat} {d : Diag}
    (hd : d ∈ P1.checkNodeList doc c pr) : ∃ ch ∈ c, d ∈ P1.checkNode doc ch (some pr) := by
  induction c with
  | nil =>
    rw [P1.checkNodeList] at hd
    cases hd
  | cons n rest ih =>
    rw [P1.checkNodeList] at hd
    rcases List.mem_append.mp hd with h | h
    · exact ⟨n, List.mem_cons_self _ _, h⟩
    · obtain ⟨m, hm, hp⟩ := ih h
      exact ⟨m, List.mem_cons_of_mem _ hm, hp⟩

/-- Inside a block (parent present), `checkNode` never emits the orphan-end
message: `End` nodes with a parent are accepted silently. -/
theorem P1_checkNode_some_noOrphan (doc : Doc) :
    ∀ (k : Nat) (n : Node), sizeOf n ≤ k → ∀ (pr : Line × Nat),
      ∀ d ∈ P1.checkNode doc n (some pr), d.message ≠ msgOrphan := by
  intro k
  induction k with
  | zero =>
    intro n hn
    cases n <;> simp at hn
  | succ k ih =>
    intro n hn pr d hd
    cases n with
    | block bs bh bc bhi brci be =>
      rw [P1.checkNode.eq_def] at hd
      dsimp only at hd
      rcases List.mem_append.mp hd with h1234 | h5
      rotate_left
      · obtain ⟨ch, hch, hp⟩ := P1_checkNodeList_mem_rev h5
        have hsz : sizeOf ch ≤ k := by
          have := List.sizeOf_lt_of_mem hch
          simp at hn
          omega
        exact ih ch hsz _ d hp
      rcases List.mem_append.mp h1234 with h123 | h4
      rotate_left
      · exact arrayDiags_noOrphan doc bc d h4
      rcases List.mem_append.mp h123 with h12 | h3
      rotate_left
      · exact paramDiags_noOrphan doc bs bh.name bh.paramsRaw bh.params d h3
      rcases List.mem_append.mp h12 with h1 | h2
      · split at h1
        · rw [List.mem_singleton] at h1
          subst h1
          exact msgHeaderIndent_ne _ _ _
        · exact absurd h1 (List.not_mem_nil d)
      · split at h2
        · rw [List.mem_singleton] at h2
          subst h2
          exact msgNotClosed_ne _
        · exact absurd h2 (List.not_mem_nil d)
    | endn es ei =>
      rw [P1.checkNode.eq_def] at hd
      dsimp only at hd
      cases hd
    | prop psn pk pv pind pr2 pp =>
      rw [P1.checkNode.eq_def] at hd
      dsimp only at hd
      rcases List.mem_append.mp hd with h1 | h2
      · split at h1
        · rw [List.mem_singleton] at h1
          subst h1
          exact msgEmptyValue_ne _
        · exact absurd h1 (List.not_mem_nil d)
      · split at h2
        · rw [List.mem_singleton] at h2
          subst h2
          exact msgContentIndent_ne _ _ _
        · exact absurd h2 (List.not_mem_nil d)
    | invalid a b c2 =>
      rw [P1.checkNode.eq_def] at hd
      cases hd
    | malformed a b c2 =>
      rw [P1.checkNode.eq_def] at hd
      cases hd

/-- Claim C5: for every top-level `End` node, the astBuilder validator
reports the orphan-end error `Found "struct.end" without a matching
"struct.begin".` exactly when the suppression test fails; when the next
non-blank line is a block-open header (or the node is at end of file) or the
previous non-blank line is another `struct.end` line, no orphan-close
diagnostic is emitted for that node (or any other source). -/
theorem c5_orphan_end_suppression (doc : Doc) (ctw tw il s ind : Nat)
    (hmem : Node.endn s ind ∈ P1.buildAST doc ctw tw il) :
    (P1.suppressed doc s = false →
      P1.pushD doc s 0 msgOrphan .error ∈ P1.validateDocument doc ctw tw il) ∧
    (P1.suppressed doc s = true →
      P1.pushD doc s 0 msgOrphan .error ∉ P1.validateDocument doc ctw tw il) := by
  constructor
  · intro hsup
    rw [P1.validateDocument]
    refine List.mem_append_right _ ?_
    rw [List.mem_flatten]
    refine ⟨P1.checkNode doc (.endn s ind) none, List.mem_map_of_mem _ hmem, ?_⟩
    rw [P1.checkNode.eq_def]
    dsimp only
    rw [hsup]
    simp
  · intro hsup hin
    rw [P1.validateDocument] at hin
    rcases List.mem_append.mp hin with h1 | h2
    · exact tokenPass_noOrphan doc (tokenize doc) _ h1 rfl
    · rw [List.mem_flatten] at h2
      obtain ⟨lst, hlst, hdin⟩ := h2
      obtain ⟨n, hnmem, he⟩ := List.mem_map.mp hlst
      subst he
      cases n with
      | endn s2 i2 =>
        rw [P1.checkNode.eq_def] at hdin
        dsimp only at hdin
        split at hdin
        · exact absurd hdin (List.not_mem_nil _)
        · rw [List.mem_singleton] at hdin
          rename_i hcond
          have hline : s = s2 := by
            have := congrArg Diag.line hdin
            simpa [P1.pushD] using this
          subst hline
          exact hcond hsup
      | block bs bh bc bhi brci be =>
        rw [P1.checkNode.eq_def] at hdin
        dsimp only at hdin
        rcases List.mem_append.mp hdin with h1234 | h5
        rotate_left
        · obtain ⟨ch, hch, hp⟩ := P1_checkNodeList_mem_rev h5
          exact P1_checkNode_some_noOrphan doc (sizeOf ch) ch le_rfl _ _ hp rfl
        rcases List.mem_append.mp h1234 with h123 | h4
        rotate_left
        · exact arrayDiags_noOrphan doc bc _ h4 rfl
        rcases List.mem_append.mp h123 with h12 | h3
        rotate_left
        · exact paramDiags_noOrphan doc bs bh.name bh.paramsRaw bh.params _ h3 rfl
        rcases List.mem_append.mp h12 with h1b | h2b
        · exact absurd h1b (List.not_mem_nil _)
        · split at h2b
          · rw [List.mem_singleton] at h2b
            have hmsg : msgOrphan = msgNotClosed bh.name := by
              simpa [P1.pushD] using congrArg Diag.message h2b
            exact msgNotClosed_ne bh.name hmsg.symm
          · exact absurd h2b (List.not_mem_nil _)
      | prop psn pk pv pind prr ppp =>
        rw [P1.checkNode.eq_def] at hdin
        dsimp only at hdin
        rcases List.mem_append.mp hdin with h1b | h2b
        · split at h1b
          · rw [List.mem_singleton] at h1b
            have hmsg : msgOrphan = msgEmptyValue pk := by
              simpa [P1.pushD] using congrArg Diag.message h1b
            exact msgEmptyValue_ne pk hmsg.symm
          · exact absurd h1b (List.not_mem_nil _)
        · exact absurd h2b (List.not_mem_nil _)
      | invalid a b c2 =>
        rw [P1.checkNode.eq_def] at hdin
        exact absurd hdin (List.not_mem_nil _)
      | malformed a b c2 =>
        rw [P1.checkNode.eq_def] at hdin
        exact absurd hdin (List.not_mem_nil _)

/-- Claim C5 witness: in the two-line document `struct.end` / `x = 1` the
top-level end at line 0 is not suppressed and the orphan-end error is
reported. -/
theorem c5_orphan_end_suppression_witness :
    P1.suppressed docOrphanProp 0 = false ∧
    P1.pushD docOrphanProp 0 0 msgOrphan .error ∈ P1.validateDocument docOrphanProp 3 3 2 :=
  ⟨by decide,
   (c5_orphan_end_suppression docOrphanProp 3 3 2 0 0 (List.Mem.head _)).1 (by decide)⟩
